import Mathlib

/-!
Shallow embedding of `llvm/lib/MC/MCPseudoProbe.cpp` (pseudo-probe encoder and
decoder).

Conventions.  A byte is a natural number (every byte actually read from the
wire is `< 256`); a buffer is a `List Nat`.  The C++ decoder keeps a member
cursor pair `(Data, End)`; here the cursor is the remaining suffix of the
buffer, so the C++ condition `Data == End` is `rem = []`, and "the cursor has
consumed strictly less than the buffer" is `rem ≠ []`.  64-bit values are
naturals below `2 ^ 64` with wrapping made explicit where the C++ wraps.
-/
/-- ULEB128 encoding of a natural number (the write side of the LEB codec,
`emitULEB128IntValue` / `llvm::encodeULEB128`). -/
def encodeULEB (n : Nat) : List Nat :=
  if h : n < 128 then [n] else (n % 128 + 128) :: encodeULEB (n / 128)
termination_by n
decreasing_by exact Nat.div_lt_self (by omega) (by omega)

/-- `llvm::decodeULEB128` over the remaining input, combined with the bounds
check `Data + NumBytesRead > End` of `readUnsignedNumber`: `none` exactly when
the encoding runs off the end of the buffer (in which case the C++ read also
fails, regardless of the value it scanned), otherwise the decoded value and
the rest of the buffer. -/
def decULEB : List Nat → Option (Nat × List Nat)
  | [] => none
  | b :: rest =>
    if b < 128 then some (b, rest)
    else
      match decULEB rest with
      | none => none
      | some (v, r) => some (b % 128 + 128 * v, r)

/-- SLEB128 encoding of an integer (the standard sign-aware loop of
`llvm::encodeSLEB128`; `v / 128` is the arithmetic shift right by 7, which for
Lean's `Int` division — Euclidean, positive divisor — is floor division). -/
def encodeSLEB (v : Int) : List Nat :=
  let byte := (v % 128).toNat
  if (v / 128 = 0 ∧ byte < 64) ∨ (v / 128 = -1 ∧ 64 ≤ byte) then [byte]
  else (byte + 128) :: encodeSLEB (v / 128)
termination_by v.natAbs
decreasing_by
  rename_i hcond
  simp only [not_or, not_and] at hcond
  omega

/-- `llvm::decodeSLEB128` over the remaining input, with the same
end-of-buffer convention as `decULEB`. -/
def decSLEB : List Nat → Option (Int × List Nat)
  | [] => none
  | b :: rest =>
    if b < 128 then
      some (if b < 64 then ((b : Int), rest) else ((b : Int) - 128, rest))
    else
      match decSLEB rest with
      | none => none
      | some (v, r) => some (((b % 128 : Nat) : Int) + 128 * v, r)

/-- Little-endian fixed-width read of `n` bytes
(`endian::readNext<T, little, unaligned>`): `none` when fewer than `n` bytes
remain. -/
def decFixed : Nat → List Nat → Option (Nat × List Nat)
  | 0, l => some (0, l)
  | _ + 1, [] => none
  | n + 1, b :: rest =>
    match decFixed n rest with
    | none => none
    | some (v, r) => some (b + 256 * v, r)

/-- Little-endian fixed-width encoding of `v` on `n` bytes. -/
def encodeFixedLE : Nat → Nat → List Nat
  | 0, _ => []
  | n + 1, v => v % 256 :: encodeFixedLE n (v / 256)

/-! ### The decoder's read primitives (lines 278-313)

Each primitive returns the optional value together with the new cursor
(remaining suffix); on failure the C++ leaves the member cursor `Data`
untouched, which here means returning the input suffix unchanged. -/
/-- Largest value of `uint32_t` (`std::numeric_limits<uint32_t>::max()`). -/
def u32Max : Nat := 2 ^ 32 - 1

/-- Largest value of `int64_t` (`std::numeric_limits<int64_t>::max()`). -/
def i64Max : Int := 2 ^ 63 - 1

/-- `MCPseudoProbeDecoder::readUnencodedNumber<T>` (lines 278-284): bounds
check `Data + sizeof(T) > End`, then a little-endian fixed-width read. -/
def readUnencodedNumber (nbytes : Nat) (rem : List Nat) : Option Nat × List Nat :=
  if rem.length < nbytes then (none, rem)
  else
    match decFixed nbytes rem with
    | none => (none, rem)
    | some (v, r) => (some v, r)

/-- `MCPseudoProbeDecoder::readUnsignedNumber<T>` (lines 286-294): ULEB128
decode, failing when the value exceeds `T`'s maximum or the encoding runs past
`End`. -/
def readUnsignedNumber (maxVal : Nat) (rem : List Nat) : Option Nat × List Nat :=
  match decULEB rem with
  | none => (none, rem)
  | some (v, r) => if maxVal < v then (none, rem) else (some v, r)

/-- `MCPseudoProbeDecoder::readSignedNumber<T>` (lines 296-304).  (For
`T = int64_t` the value test is vacuous in the C++, where `Val` already has
type `int64_t`.) -/
def readSignedNumber (maxVal : Int) (rem : List Nat) : Option Int × List Nat :=
  match decSLEB rem with
  | none => (none, rem)
  | some (v, r) => if maxVal < v then (none, rem) else (some v, r)

/-- `MCPseudoProbeDecoder::readString` (lines 306-313): a raw `size`-byte
slice, failing when `Data + Size > End`. -/
def readString (size : Nat) (rem : List Nat) : Option (List Nat) × List Nat :=
  if rem.length < size then (none, rem) else (some (rem.take size), rem.drop size)

/-! ### Decoder data model

An inline-site key is the C++ `InlineSite = std::tuple<uint64_t, uint32_t>`:
GUID first, then (callsite or sequential) index — see `InlineSite(Probe.getGuid(), 0)`
at line 99 and `std::make_tuple(Guid, Index)` at line 419.

A decoded inline-tree node is identified by its key path from the dummy root
(the chain of `getOrAddNode` keys); `Parent` pointers correspond to dropping
the last path entry.  A decoded probe stores that path, which is what
`MCDecodedPseudoProbe::getInlineContext` walks. -/
structure Site where
  guid : Nat
  idx : Nat
deriving DecidableEq

/-- `MCDecodedPseudoProbe`: address, owning GUID, index, kind, attributes, and
the inline-tree node (as its key path from the dummy root). -/
structure DecProbe where
  addr : Nat
  guid : Nat
  index : Nat
  kind : Nat
  attr : Nat
  path : List Site
deriving DecidableEq

/-- Decoder state for the probe-section parse: the remaining input, the
running `LastAddr` cursor, the dummy root's current child count (what
`Cur->getChildren().size()` returns at top level), and the contents of
`Address2ProbesMap` flattened in insertion (parse) order — each entry carries
its address, so the map itself is recoverable by grouping on `addr`. -/
structure DecSt where
  rem : List Nat
  lastAddr : Nat
  rootChildCount : Nat
  probes : List DecProbe
deriving DecidableEq

/-- The wrap of `uint64_t Addr = LastAddr + Offset` (uint64 addition of a
sign-converted `int64_t`): two's-complement, modulo `2 ^ 64`. -/
def wrap64 (x : Int) : Nat := (x % (2 ^ 64 : Int)).toNat

/-- One PROBE record of the probe section (loop body of lines 433-469 up to
the `Address2ProbesMap` update): index, packed type/attr/flag byte, and the
address (delta or unencoded), returning `(some fields, cursor)` or
`(none, cursor-so-far)` — on a failing read the C++ member cursor keeps the
advancement of the earlier, successful reads of the same record. -/
def decProbeRecord (rem : List Nat) (lastAddr : Nat) :
    Option (Nat × Nat × Nat × Nat) × List Nat :=
  match readUnsignedNumber u32Max rem with
  | (none, r) => (none, r)
  | (some index, rem1) =>
    match readUnencodedNumber 1 rem1 with
    | (none, r) => (none, r)
    | (some value, rem2) =>
      -- Value & 0xf, (Value & 0x70) >> 4, Value & 0x80 (bytes are < 256)
      let kind := value % 16
      let attr := value / 16 % 8
      if 128 ≤ value then
        match readSignedNumber i64Max rem2 with
        | (none, r) => (none, r)
        | (some off, rem3) => (some (index, kind, attr, wrap64 (lastAddr + off)), rem3)
      else
        match readUnencodedNumber 8 rem2 with
        | (none, r) => (none, r)
        | (some a, rem3) => (some (index, kind, attr, a), rem3)

/-- The probe loop of `buildAddress2ProbeMap` (lines 433-469): reads `n`
records; when `cur` is non-null each probe is appended to the address index
with `Cur->Guid` (the last path entry's GUID) and the node path;
`LastAddr = Addr` is updated unconditionally. -/
def decProbes : Nat → Option (List Site) → DecSt → Bool × DecSt
  | 0, _, st => (true, st)
  | n + 1, cur, st =>
    match decProbeRecord st.rem st.lastAddr with
    | (none, r) => (false, { st with rem := r })
    | (some (index, kind, attr, addr), r) =>
      match cur with
      | none => decProbes n none { st with rem := r, lastAddr := addr }
      | some path =>
        decProbes n (some path)
          { st with
              rem := r
              lastAddr := addr
              probes := st.probes ++
                [⟨addr, (path.getLastD ⟨0, 0⟩).guid, index, kind, attr, path⟩] }

mutual

/-- `MCPseudoProbeDecoder::buildAddress2ProbeMap` — recursive form, lines
360-477.  `cur = some []` plays the role of `Cur == &DummyInlineRoot`
(the path to the dummy root is empty); `cur = none` is a discarded
(`nullptr`) subtree.  `fuel` is a modelling artifact that bounds the
recursion depth and the inlinee-loop iterations together; a `none` result
means the fuel ran out (the theorems below supply enough fuel for every
parse they consider). -/
def decBody : Nat → List Nat → Option (List Site) → DecSt → Option (Bool × DecSt)
  | 0, _, _, _ => none
  | fuel + 1, filter, cur, st =>
    -- lines 393-403: synthesised sequential id at top level, read otherwise
    match (if cur = some [] then (some st.rootChildCount, st.rem)
           else readUnsignedNumber u32Max st.rem) with
    | (none, r) => some (false, { st with rem := r })
    | (some index, rem0) =>
      -- lines 405-409: read guid
      match readUnencodedNumber 8 rem0 with
      | (none, r) => some (false, { st with rem := r })
      | (some guid, rem1) =>
        -- lines 411-414: top-level GUID filter
        let cur1 := if cur = some [] ∧ filter ≠ [] ∧ ¬ guid ∈ filter then none else cur
        -- lines 416-421: getOrAddNode((Guid, Index)), Cur->Guid = Guid
        let cur2 : Option (List Site) := cur1.map (fun path => path ++ [⟨guid, index⟩])
        let rcc := if cur1 = some [] then st.rootChildCount + 1 else st.rootChildCount
        -- lines 423-431: probe and inlinee counts
        match readUnsignedNumber u32Max rem1 with
        | (none, r) => some (false, { st with rem := r, rootChildCount := rcc })
        | (some nodeCount, rem2) =>
          match readUnsignedNumber u32Max rem2 with
          | (none, r) => some (false, { st with rem := r, rootChildCount := rcc })
          | (some childrenToProcess, rem3) =>
            match decProbes nodeCount cur2
                { st with rem := rem3, rootChildCount := rcc } with
            | (false, st3) => some (false, st3)
            | (true, st3) =>
              match decChildren fuel childrenToProcess filter cur2 st3 with
              | none => none
              | some st4 => some (true, st4)

/-- The inlinee loop of lines 471-474: the recursive result is DISCARDED,
exactly as in the source (`buildAddress2ProbeMap(Cur, LastAddr, GuildFilter);`
with no check). -/
def decChildren : Nat → Nat → List Nat → Option (List Site) → DecSt → Option DecSt
  | _, 0, _, _, st => some st
  | 0, _ + 1, _, _, _ => none
  | fuel + 1, n + 1, filter, cur, st =>
    match decBody fuel filter cur st with
    | none => none
    | some (_, st') => decChildren fuel n filter cur st'

end

/-- The driver loop of `buildAddress2ProbeMap(Start, Size, GuildFilter)`
(lines 479-489): `while (Data < End) buildAddress2ProbeMap(...)` — the
helper's boolean result is DISCARDED, and when the loop exits the function
returns `true`.  `fuel` additionally bounds the number of loop iterations;
`none` means it ran out (which, for this loop, also models divergence: on
inputs where the helper fails without consuming anything the C++ loops
forever). -/
def decOuter : Nat → List Nat → DecSt → Option (Bool × DecSt)
  | 0, _, _ => none
  | fuel + 1, filter, st =>
    if st.rem = [] then some (true, st)
    else
      match decBody fuel filter (some []) st with
      | none => none
      | some (_, st') => decOuter fuel filter st'

/-- `MCPseudoProbeDecoder::buildAddress2ProbeMap(Start, Size, GuildFilter)`:
cursor set to the whole buffer, `LastAddr = 0`, empty maps. -/
def buildAddress2ProbeMap (fuel : Nat) (buf : List Nat) (filter : List Nat) :
    Option (Bool × DecSt) :=
  decOuter fuel filter ⟨buf, 0, 0, []⟩

/-- `MCPseudoProbeFuncDesc`: GUID, hash, and the (borrowed) name bytes. -/
structure FuncDesc where
  guid : Nat
  hash : Nat
  name : List Nat
deriving DecidableEq

/-- `GUID2FuncDescMap.emplace(GUID, ...)`: `std::unordered_map::emplace` keeps
an existing entry for the key (first writer wins). -/
def emplaceDesc (m : List (Nat × FuncDesc)) (g : Nat) (d : FuncDesc) :
    List (Nat × FuncDesc) :=
  if (m.lookup g).isSome then m else m ++ [(g, d)]

/-- The loop of `MCPseudoProbeDecoder::buildGUID2FuncDescMap` (lines
315-358): GUID (u64), hash (u64), name size (ULEB128 ≤ u32), name bytes.
`fuel` bounds iterations; each successful iteration consumes at least 17
bytes, so `buf.length + 1` is always enough. -/
def buildDescLoop : Nat → List Nat → List (Nat × FuncDesc) →
    Option (Bool × List Nat × List (Nat × FuncDesc))
  | 0, _, _ => none
  | fuel + 1, rem, m =>
    if rem = [] then some (true, rem, m)
    else
      match readUnencodedNumber 8 rem with
      | (none, r) => some (false, r, m)
      | (some guid, r1) =>
        match readUnencodedNumber 8 r1 with
        | (none, r) => some (false, r, m)
        | (some hash, r2) =>
          match readUnsignedNumber u32Max r2 with
          | (none, r) => some (false, r, m)
          | (some nameSize, r3) =>
            match readString nameSize r3 with
            | (none, r) => some (false, r, m)
            | (some name, r4) =>
              buildDescLoop fuel r4 (emplaceDesc m guid ⟨guid, hash, name⟩)

/-- `MCPseudoProbeDecoder::buildGUID2FuncDescMap(Start, Size)`. -/
def buildGUID2FuncDescMap (buf : List Nat) :
    Option (Bool × List Nat × List (Nat × FuncDesc)) :=
  buildDescLoop (buf.length + 1) buf []

/-- The parse-progress observables of a decoder state: the cursor and the
`LastAddr` running address.  (What remains — the inline forest and the address
index — is exactly what a filtered subtree does not populate.) -/
def DecSt.obs (st : DecSt) : List Nat × Nat := (st.rem, st.lastAddr)

/-- Progress observables of a `decBody` result. -/
def obsOfResult (r : Option (Bool × DecSt)) : Option (Bool × List Nat × Nat) :=
  r.map (fun p => (p.1, p.2.obs))

/-! ### Encoder data model and emission (lines 43-191) -/
/-- `MCPseudoProbe` (encoder view): index, type, attributes, the code-address
label (an opaque symbol id, resolved by the object writer), and the owning
function's GUID. -/
structure EncProbe where
  index : Nat
  type : Nat
  attributes : Nat
  label : Nat
  guid : Nat
deriving DecidableEq

/-- `MCPseudoProbeInlineTree`: GUID, probes in insertion order, and the
children keyed by inline site.  The C++ container is a hash map; the list
keeps insertion order, and the emitter sorts before iterating (lines
151-156), so the emitted order never depends on this order. -/
inductive EncTree where
  | node (guid : Nat) (probes : List EncProbe) (children : List (Site × EncTree))

/-- The packed flag/attr/type byte of lines 51-56:
`PackedType = Type | (Attributes << 4)`; `Flag = LastProbe ? 0x80 : 0`; the
emitted byte is `Flag | PackedType` (under the source's asserts `Type ≤ 0xF`
and `Attributes ≤ 0x7` it fits in one byte). -/
def packedByte (type attributes : Nat) (hasLastProbe : Bool) : Nat :=
  (if hasLastProbe then 128 else 0) ||| (type ||| (attributes <<< 4))

/-- A freshly created tree node for `getOrAddNode` on a missing key: the
`MCPseudoProbeInlineTree(Site)` constructor takes its GUID from the site. -/
def emptyEncNode (s : Site) : EncTree := .node s.guid [] []

/-- Replace the entry for `k` in a children map, or append it at the end —
the write-back half of `getOrAddNode` on the hash map. -/
def upsertChild (k : Site) (t : EncTree) : List (Site × EncTree) →
    List (Site × EncTree)
  | [] => [(k, t)]
  | (k2, t2) :: cs => if k2 = k then (k2, t) :: cs else (k2, t2) :: upsertChild k t cs

/-- Look a key up in a children map (the read half of `getOrAddNode`). -/
def findChild (k : Site) : List (Site × EncTree) → Option EncTree
  | [] => none
  | (k2, t) :: cs => if k2 = k then some t else findChild k cs

/-- Append `p` to the probe list of the node reached by following `path`
from `t`, creating missing nodes on the way — the net effect of the
`getOrAddNode` chain in `addPseudoProbe` (existing nodes reused, missing
ones created). -/
def insertPath : List Site → EncTree → EncProbe → EncTree
  | [], .node g ps cs, p => .node g (ps ++ [p]) cs
  | k :: rest, .node g ps cs, p =>
    .node g ps
      (upsertChild k (insertPath rest ((findChild k cs).getD (emptyEncNode k)) p) cs)

/-- The chain of `getOrAddNode` keys walked by `addPseudoProbe`
(lines 94-118): the top edge `(fn1, 0)` (or `(probe.guid, 0)` when the stack
is empty), then one edge per later stack entry keyed by the previous entry's
probe index and the current entry's GUID, and a final edge
`(probe.guid, last index)`. -/
def codePathTail (index : Nat) : List Site → Nat → List Site
  | [], pguid => [⟨pguid, index⟩]
  | e :: rest, pguid => ⟨e.guid, index⟩ :: codePathTail e.idx rest pguid

/-- The key path of `addPseudoProbe` as the source's loop computes it. -/
def codePath (pguid : Nat) (stack : List Site) : List Site :=
  match stack with
  | [] => [⟨pguid, 0⟩]
  | e :: rest => ⟨e.guid, 0⟩ :: codePathTail e.idx rest pguid

/-- `MCPseudoProbeInlineTree::addPseudoProbe(Probe, InlineStack)`
(lines 80-121): descend/create along the key path, then push the probe. -/
def addPseudoProbe (root : EncTree) (p : EncProbe) (stack : List Site) : EncTree :=
  insertPath (codePath p.guid stack) root p

/-- The probe list of the node reached by `path` (empty when the path leads
nowhere). -/
def probesAt : List Site → EncTree → List EncProbe
  | [], .node _ ps _ => ps
  | k :: rest, .node _ _ cs =>
    match findChild k cs with
    | none => []
    | some t => probesAt rest t

/-- The path the claim describes, written as a zip: `(0, fn1)` (as the
source's `(guid, index)` tuple: `⟨fn1, 0⟩`), then for each subsequent stack
entry the child keyed by the previous entry's callsite index and the current
entry's GUID, and finally the child keyed by the last entry's callsite index
and the probe's GUID. -/
def specPath (pguid : Nat) (stack : List Site) : List Site :=
  match stack with
  | [] => [⟨pguid, 0⟩]
  | e :: rest =>
    ⟨e.guid, 0⟩ ::
      List.zipWith (fun idx g => ⟨g, idx⟩)
        (e.idx :: rest.map Site.idx) (rest.map Site.guid ++ [pguid])

/-- `std::less` on `InlineSite = std::tuple<uint64_t, uint32_t>`:
lexicographic with the GUID component first. -/
def siteLe (a b : Site) : Prop :=
  a.guid < b.guid ∨ (a.guid = b.guid ∧ a.idx ≤ b.idx)

instance (a b : Site) : Decidable (siteLe a b) :=
  inferInstanceAs (Decidable (a.guid < b.guid ∨ (a.guid = b.guid ∧ a.idx ≤ b.idx)))

/-- The ordering the claim asserts instead: ascending `(callsite_index, guid)`
with the callsite index compared first. -/
def claimSiteLe (a b : Site) : Prop :=
  a.idx < b.idx ∨ (a.idx = b.idx ∧ a.guid ≤ b.guid)

instance (a b : Site) : Decidable (claimSiteLe a b) :=
  inferInstanceAs (Decidable (a.idx < b.idx ∨ (a.idx = b.idx ∧ a.guid ≤ b.guid)))

/-- Insertion step of the model of `std::map` iteration order. -/
def insertSorted (x : Site × EncTree) : List (Site × EncTree) →
    List (Site × EncTree)
  | [] => [x]
  | y :: rest => if siteLe x.1 y.1 then x :: y :: rest else y :: insertSorted x rest

/-- The `std::map<InlineSite, MCPseudoProbeInlineTree*> Inlinees` built at
lines 154-156: the children reordered into ascending `std::less<InlineSite>`
(GUID-major) order, which is the order the emitter then iterates. -/
def sortSites : List (Site × EncTree) → List (Site × EncTree)
  | [] => []
  | x :: rest => insertSorted x (sortSites rest)

/-- One emitted datum handed to the `MCObjectStreamer`. -/
inductive EmitItem where
  | uleb (n : Nat)
  | int8 (n : Nat)
  | int64 (n : Nat)
  | sleb (d : Int)
  | addrFrag (a b : Nat)
  | symbolVal (label : Nat) (size : Nat)
deriving DecidableEq

/-- `MCPseudoProbe::emit` (lines 43-78): ULEB128 index, the packed byte,
then — with a previous probe — the SLEB128 delta when the assembler folds
`Label - LastProbe->Label` to a constant (`evalDelta`), or a deferred
`MCPseudoProbeAddrFragment` otherwise; with no previous probe, the label as
a symbolic code address of pointer size. -/
def emitProbe (evalDelta : Nat → Nat → Option Int) (ptrSize : Nat)
    (p : EncProbe) (lastProbe : Option EncProbe) : List EmitItem :=
  [.uleb p.index, .int8 (packedByte p.type p.attributes lastProbe.isSome)] ++
    match lastProbe with
    | some lp =>
      match evalDelta p.label lp.label with
      | some d => [.sleb d]
      | none => [.addrFrag p.label lp.label]
    | none => [.symbolVal p.label ptrSize]

/-- The probe loop of `MCPseudoProbeInlineTree::emit` (lines 143-146):
`LastProbe` becomes each probe after it is emitted. -/
def emitProbeList (evalDelta : Nat → Nat → Option Int) (ptrSize : Nat) :
    List EncProbe → Option EncProbe → List EmitItem × Option EncProbe
  | [], lastP => ([], lastP)
  | p :: rest, lastP =>
    let r := emitProbeList evalDelta ptrSize rest (some p)
    (emitProbe evalDelta ptrSize p lastP ++ r.1, r.2)

mutual

/-- `MCPseudoProbeInlineTree::emit` (lines 123-176): for `Guid ≠ 0` the
header (fixed u64 GUID, ULEB probe count, ULEB child count) and the probes
in insertion order; then the children in ascending `std::map` key order. -/
def emitTree (evalDelta : Nat → Nat → Option Int) (ptrSize : Nat) :
    EncTree → Option EncProbe → List EmitItem × Option EncProbe
  | .node guid probes children, lastP =>
    let hdr :=
      if guid ≠ 0 then
        let pr := emitProbeList evalDelta ptrSize probes lastP
        ([EmitItem.int64 guid, EmitItem.uleb probes.length,
          EmitItem.uleb children.length] ++ pr.1, pr.2)
      else ([], lastP)
    let ch := emitChildList evalDelta ptrSize guid (sortSites children) hdr.2
    (hdr.1 ++ ch.1, ch.2)
termination_by t _ => sizeOf t
decreasing_by
  simp_wf
  have hins : ∀ (x : Site × EncTree) (l : List (Site × EncTree)),
      sizeOf (insertSorted x l) = 1 + sizeOf x + sizeOf l := by
    intro x l
    induction l with
    | nil => simp [insertSorted]
    | cons y rest ih =>
      simp only [insertSorted]
      split
      · simp
      · simp [ih]
        omega
  have hsort : ∀ (l : List (Site × EncTree)), sizeOf (sortSites l) = sizeOf l := by
    intro l
    induction l with
    | nil => rfl
    | cons x rest ih =>
      simp [sortSites, hins, ih]
  rw [hsort]
  simp

/-- The sorted-children loop of lines 158-169; for a non-root parent the
child's inline-site index is emitted before the child's own group. -/
def emitChildList (evalDelta : Nat → Nat → Option Int) (ptrSize : Nat)
    (parentGuid : Nat) :
    List (Site × EncTree) → Option EncProbe → List EmitItem × Option EncProbe
  | [], lastP => ([], lastP)
  | (site, child) :: rest, lastP =>
    let pre := if parentGuid ≠ 0 then [EmitItem.uleb site.idx] else []
    let c := emitTree evalDelta ptrSize child lastP
    let more := emitChildList evalDelta ptrSize parentGuid rest c.2
    (pre ++ c.1 ++ more.1, more.2)
termination_by cs _ => sizeOf cs
decreasing_by
  all_goals simp_wf
  all_goals omega

end

/-- `MCPseudoProbeSection::emit` (lines 178-191): one output list per
division whose object section exists (`getPseudoProbeSection` non-null,
modelled by `secAvail`); `LastProbe` is reset to null at the start of every
division's walk. -/
def emitSections (evalDelta : Nat → Nat → Option Int) (ptrSize : Nat)
    (secAvail : Nat → Bool) : List (Nat × EncTree) → List (List EmitItem)
  | [] => []
  | (key, tree) :: rest =>
    (if secAvail key then [(emitTree evalDelta ptrSize tree none).1] else []) ++
      emitSections evalDelta ptrSize secAvail rest

/-- The value of the `LastProbe` cursor after a probe list has been emitted:
the last probe of the list, or the incoming cursor for an empty list. -/
def lastOf (ps : List EncProbe) (lastP : Option EncProbe) : Option EncProbe :=
  ps.foldl (fun _ p => some p) lastP

/-- The address item a probe record carries, as a function of the probe and
the `LastProbe` cursor at its emission (cf. lines 58-72). -/
def addrItem (evalDelta : Nat → Nat → Option Int) (ptrSize : Nat)
    (p : EncProbe) : Option EncProbe → EmitItem
  | some lp =>
    match evalDelta p.label lp.label with
    | some d => .sleb d
    | none => .addrFrag p.label lp.label
  | none => .symbolVal p.label ptrSize

/-- The sequence of probe records (packed byte, address item) produced by
emitting `ps` starting from cursor `lastP`: the first record is relative to
`lastP` (absolute when `lastP` is null) and every later record is relative
to its predecessor in `ps`. -/
def probeChain (evalDelta : Nat → Nat → Option Int) (ptrSize : Nat) :
    Option EncProbe → List EncProbe → List (Nat × EmitItem)
  | _, [] => []
  | lastP, p :: rest =>
    (packedByte p.type p.attributes lastP.isSome, addrItem evalDelta ptrSize p lastP) ::
      probeChain evalDelta ptrSize (some p) rest

/-- Scan an emitted item stream for probe records: a packed byte (`int8`,
emitted nowhere else) followed by its address item. -/
def extractRecords : List EmitItem → List (Nat × EmitItem)
  | .int8 b :: a :: rest => (b, a) :: extractRecords rest
  | _ :: rest => extractRecords rest
  | [] => []

/-- Membership of a probe in an encoder tree. -/
inductive ProbeInTree : EncProbe → EncTree → Prop where
  | here {p : EncProbe} {g : Nat} {ps : List EncProbe}
      {cs : List (Site × EncTree)} :
      p ∈ ps → ProbeInTree p (.node g ps cs)
  | there {p : EncProbe} {g : Nat} {ps : List EncProbe}
      {cs : List (Site × EncTree)} {s : Site} {c : EncTree} :
      (s, c) ∈ cs → ProbeInTree p c → ProbeInTree p (.node g ps cs)

def int64Items (l : List EmitItem) : List Nat :=
  l.filterMap (fun i => match i with | .int64 g => some g | _ => none)

/-- `getProbeFNameForGUID` (lines 212-218): look the GUID up in the
function-descriptor map and return the function name.  The source asserts
the GUID is present; an absent GUID yields the empty name here. -/
def getProbeFNameForGUID (m : List (Nat × FuncDesc)) (guid : Nat) : List Nat :=
  match m.lookup guid with
  | some d => d.name
  | none => []

/-- The loop of `MCDecodedPseudoProbe::getInlineContext` (lines 225-240),
over the node's key path from the dummy root, reversed so that the probe's
node comes first and `Cur = Cur->Parent` is the structural tail.
Spec-modelled node accessors (`MCPseudoProbe.h` is outside the sources):
`Cur->hasInlineSite()` holds iff the node lies below a top-level function
node, i.e. the reversed path still has a parent entry after the current
one; `Cur->Parent->Guid` is that next entry's GUID; `std::get<1>(Cur->ISite)`
is the current entry's index. -/
def collectUpRev (m : List (Nat × FuncDesc)) : List Site → List (List Nat × Nat)
  | s :: parent :: rest =>
    (getProbeFNameForGUID m parent.guid, s.idx) :: collectUpRev m (parent :: rest)
  | _ => []

/-- `MCDecodedPseudoProbe::getInlineContext` (lines 225-240): collect the
frames walking up from the probe's node, then reverse the collected segment
into caller→callee order. -/
def getInlineContext (m : List (Nat × FuncDesc)) (p : DecProbe) :
    List (List Nat × Nat) :=
  (collectUpRev m p.path.reverse).reverse

/-- `MCPseudoProbeDecoder::getInlineContextForProbe` (lines 557-569): the
probe's inline context; when `IncludeLeaf`, append the probe's own frame,
named through `getFuncDescForGUID` (lines 550-555, the same asserted map
lookup). -/
def getInlineContextForProbe (m : List (Nat × FuncDesc)) (p : DecProbe)
    (includeLeaf : Bool) : List (List Nat × Nat) :=
  getInlineContext m p ++
    (if includeLeaf then [(getProbeFNameForGUID m p.guid, p.index)] else [])

/-- C9's reading of the context, written from the spec's words: along the
path in caller→callee order, the pair (name of the parent's GUID, the
node's callsite index) for each parent/node step. -/
def specContext (m : List (Nat × FuncDesc)) : List Site → List (List Nat × Nat)
  | parent :: node :: rest =>
    (getProbeFNameForGUID m parent.guid, node.idx) :: specContext m (node :: rest)
  | _ => []

/-! ### A spec-modelled wire grammar for well-formed probe sections (C3) -/
/-- The address field of a PROBE record in the wire grammar: either an
SLEB128 delta (flag set) or an 8-byte absolute address (flag clear). -/
inductive WireAddr where
  | delta (d : Int)
  | absolute (a : Nat)
deriving DecidableEq

/-- One PROBE record of the wire grammar: index, 4-bit type, 3-bit
attributes, and the address field. -/
structure WireProbe where
  index : Nat
  kind : Nat
  attr : Nat
  addr : WireAddr
deriving DecidableEq

/-- One FUNCTION BODY of the wire grammar: GUID, probe records, and the
inlinee records (callsite index plus nested body). -/
inductive WireBody where
  | node (guid : Nat) (probes : List WireProbe) (inlinees : List (Nat × WireBody))

/-- The address a record's address field decodes to, given `LastAddr`. -/
def wireAddrVal (la : Nat) : WireAddr → Nat
  | .delta d => wrap64 ((la : Int) + d)
  | .absolute a => a

/-- Serialize one PROBE record: ULEB index, packed byte, address field. -/
def serProbe (p : WireProbe) : List Nat :=
  encodeULEB p.index ++
    match p.addr with
    | .delta d => (p.kind + 16 * p.attr + 128) :: encodeSLEB d
    | .absolute a => (p.kind + 16 * p.attr) :: encodeFixedLE 8 a

def serProbeList : List WireProbe → List Nat
  | [] => []
  | p :: rest => serProbe p ++ serProbeList rest

mutual

/-- Serialize a FUNCTION BODY: GUID (u64 LE), NPROBES (ULEB),
NUM_INLINED_FUNCTIONS (ULEB), probe records, inlinee records. -/
def serBody : WireBody → List Nat
  | .node guid probes inlinees =>
    encodeFixedLE 8 guid ++ encodeULEB probes.length ++
      encodeULEB inlinees.length ++ serProbeList probes ++ serInlinees inlinees

/-- Serialize the inlinee records: ULEB callsite index, then the body. -/
def serInlinees : List (Nat × WireBody) → List Nat
  | [] => []
  | (idx, b) :: rest => encodeULEB idx ++ serBody b ++ serInlinees rest

end

/-- Wire well-formedness of an address field: a delta within `int64_t`, or
an absolute address within `uint64_t`. -/
def wfAddrB : WireAddr → Bool
  | .delta d => decide (d ≤ i64Max)
  | .absolute a => decide (a < 2 ^ 64)

/-- Wire well-formedness of a PROBE record. -/
def wfProbeB (p : WireProbe) : Bool :=
  decide (p.index ≤ u32Max) && decide (p.kind < 16) && decide (p.attr < 8) &&
    wfAddrB p.addr

mutual

/-- Wire well-formedness of a FUNCTION BODY: every number fits the type the
decoder reads it at. -/
def wfBodyB : WireBody → Bool
  | .node guid probes inlinees =>
    decide (guid < 2 ^ 64) && decide (probes.length ≤ u32Max) &&
      decide (inlinees.length ≤ u32Max) && probes.all wfProbeB &&
      wfInlineesB inlinees

def wfInlineesB : List (Nat × WireBody) → Bool
  | [] => true
  | (idx, b) :: rest => decide (idx ≤ u32Max) && wfBodyB b && wfInlineesB rest

end

mutual

/-- Fuel sufficient for `decBody` on a serialized body (one unit per
recursion level and per inlinee-loop iteration). -/
def bodyFuel : WireBody → Nat
  | .node _ _ inlinees => inlFuel inlinees + 1

def inlFuel : List (Nat × WireBody) → Nat
  | [] => 0
  | (_, b) :: rest => max (bodyFuel b) (inlFuel rest) + 1

end

/-- A whole probe section: the serialized top-level function bodies. -/
def serSection : List WireBody → List Nat
  | [] => []
  | b :: rest => serBody b ++ serSection rest

/-- Fuel sufficient for the driver loop over a serialized section. -/
def secFuel : List WireBody → Nat
  | [] => 1
  | b :: rest => max (bodyFuel b) (secFuel rest) + 1

theorem decULEB_encodeULEB : ∀ (n : Nat) (r : List Nat),
    decULEB (encodeULEB n ++ r) = some (n, r) := by
  intro n
  induction n using Nat.strong_induction_on with
  | _ n ih =>
    intro r
    rw [encodeULEB]
    split
    · rename_i h
      simp [decULEB, h]
    · rename_i h
      have h2 : ¬ (n % 128 + 128 < 128) := by omega
      have hrec := ih (n / 128) (Nat.div_lt_self (by omega) (by omega)) r
      simp only [List.cons_append, decULEB, if_neg h2, List.append_eq]
      rw [hrec]
      have h3 : (n % 128 + 128) % 128 + 128 * (n / 128) = n := by omega
      show some ((n % 128 + 128) % 128 + 128 * (n / 128), r) = some (n, r)
      rw [h3]

theorem decSLEB_encodeSLEB : ∀ (v : Int) (r : List Nat),
    decSLEB (encodeSLEB v ++ r) = some (v, r) := by
  have main : ∀ (fuel : Nat) (v : Int), v.natAbs ≤ fuel → ∀ r : List Nat,
      decSLEB (encodeSLEB v ++ r) = some (v, r) := by
    intro fuel
    induction fuel with
    | zero =>
      intro v hv r
      have hv0 : v = 0 := by omega
      subst hv0
      rw [encodeSLEB]
      norm_num [decSLEB]
    | succ k ih =>
      intro v hv r
      rw [encodeSLEB]
      have hmod0 : 0 ≤ v % 128 := Int.emod_nonneg v (by norm_num)
      have hmod1 : v % 128 < 128 := Int.emod_lt_of_pos v (by norm_num)
      have hdm : 128 * (v / 128) + v % 128 = v := Int.ediv_add_emod v 128
      split
      · rename_i hcond
        have hb : (v % 128).toNat < 128 := by omega
        simp only [List.cons_append, decSLEB, if_pos hb]
        rcases hcond with ⟨hq, hlow⟩ | ⟨hq, hhigh⟩
        · have h64 : (v % 128).toNat < 64 := hlow
          rw [if_pos h64]
          have hval : (((v % 128).toNat : Nat) : Int) = v := by omega
          rw [hval]
          simp
        · have h64 : ¬ (v % 128).toNat < 64 := by omega
          rw [if_neg h64]
          have hval : (((v % 128).toNat : Nat) : Int) - 128 = v := by omega
          rw [hval]
          simp
      · rename_i hcond
        simp only [not_or, not_and] at hcond
        have hsmaller : (v / 128).natAbs ≤ k := by omega
        have hrec := ih (v / 128) hsmaller r
        have hb2 : ¬ ((v % 128).toNat + 128 < 128) := by omega
        simp only [List.cons_append, decSLEB, if_neg hb2, List.append_eq]
        rw [hrec]
        have h3 : ((((v % 128).toNat + 128) % 128 : Nat) : Int) + 128 * (v / 128) = v := by
          omega
        show some (((((v % 128).toNat + 128) % 128 : Nat) : Int) + 128 * (v / 128), r) =
          some (v, r)
        rw [h3]
  intro v r
  exact main v.natAbs v (le_refl _) r

theorem decFixed_encodeFixedLE : ∀ (n v : Nat) (r : List Nat),
    decFixed n (encodeFixedLE n v ++ r) = some (v % 256 ^ n, r) := by
  intro n
  induction n with
  | zero =>
    intro v r
    simp [encodeFixedLE, decFixed, Nat.mod_one]
  | succ n ih =>
    intro v r
    simp only [encodeFixedLE, List.cons_append, decFixed, List.append_eq]
    rw [ih (v / 256) r]
    have hmm : v % 256 + 256 * (v / 256 % 256 ^ n) = v % 256 ^ (n + 1) := by
      rw [pow_succ, mul_comm (256 ^ n) 256, Nat.mod_mul]
    show some (v % 256 + 256 * (v / 256 % 256 ^ n), r) = some (v % 256 ^ (n + 1), r)
    rw [hmm]

/-- On success `decULEB` has consumed between one byte and the whole input,
and the returned rest is a suffix. -/
theorem decULEB_suffix : ∀ (l : List Nat) (v : Nat) (r : List Nat),
    decULEB l = some (v, r) → ∃ k, 1 ≤ k ∧ k ≤ l.length ∧ r = l.drop k := by
  intro l
  induction l with
  | nil => intro v r h; simp [decULEB] at h
  | cons b rest ih =>
    intro v r h
    by_cases hb : b < 128
    · simp only [decULEB, if_pos hb, Option.some.injEq, Prod.mk.injEq] at h
      exact ⟨1, by omega, by simp, by simp [← h.2]⟩
    · simp only [decULEB, if_neg hb] at h
      cases hdec : decULEB rest with
      | none => rw [hdec] at h; simp at h
      | some p =>
        rw [hdec] at h
        obtain ⟨v2, r2⟩ := p
        simp only [Option.some.injEq, Prod.mk.injEq] at h
        obtain ⟨k, hk1, hk2, hk3⟩ := ih v2 r2 hdec
        exact ⟨k + 1, by omega, by simp; omega, by simp [← h.2, hk3]⟩

/-- On success `decSLEB` has consumed between one byte and the whole input,
and the returned rest is a suffix. -/
theorem decSLEB_suffix : ∀ (l : List Nat) (v : Int) (r : List Nat),
    decSLEB l = some (v, r) → ∃ k, 1 ≤ k ∧ k ≤ l.length ∧ r = l.drop k := by
  intro l
  induction l with
  | nil => intro v r h; simp [decSLEB] at h
  | cons b rest ih =>
    intro v r h
    by_cases hb : b < 128
    · simp only [decSLEB, if_pos hb] at h
      refine ⟨1, by omega, by simp, ?_⟩
      split at h <;> simp only [Option.some.injEq, Prod.mk.injEq] at h <;>
        simp [← h.2]
    · simp only [decSLEB, if_neg hb] at h
      cases hdec : decSLEB rest with
      | none => rw [hdec] at h; simp at h
      | some p =>
        rw [hdec] at h
        obtain ⟨v2, r2⟩ := p
        simp only [Option.some.injEq, Prod.mk.injEq] at h
        obtain ⟨k, hk1, hk2, hk3⟩ := ih v2 r2 hdec
        exact ⟨k + 1, by omega, by simp; omega, by simp [← h.2, hk3]⟩

/-- On success `decFixed n` has consumed exactly `n` bytes. -/
theorem decFixed_suffix : ∀ (n : Nat) (l : List Nat) (v : Nat) (r : List Nat),
    decFixed n l = some (v, r) → n ≤ l.length ∧ r = l.drop n := by
  intro n
  induction n with
  | zero => intro l v r h; simp only [decFixed, Option.some.injEq, Prod.mk.injEq] at h
            exact ⟨by omega, by simp [← h.2]⟩
  | succ n ih =>
    intro l v r h
    cases l with
    | nil => simp [decFixed] at h
    | cons b rest =>
      simp only [decFixed] at h
      cases hdec : decFixed n rest with
      | none => rw [hdec] at h; simp at h
      | some p =>
        rw [hdec] at h
        obtain ⟨v2, r2⟩ := p
        simp only [Option.some.injEq, Prod.mk.injEq] at h
        obtain ⟨hk1, hk2⟩ := ih rest v2 r2 hdec
        exact ⟨by simp; omega, by simp [← h.2, hk2]⟩

/-- `decFixed n` succeeds whenever `n` bytes remain. -/
theorem decFixed_isSome : ∀ (n : Nat) (l : List Nat), n ≤ l.length →
    ∃ v r, decFixed n l = some (v, r) := by
  intro n
  induction n with
  | zero => intro l _; exact ⟨0, l, rfl⟩
  | succ n ih =>
    intro l hl
    cases l with
    | nil => simp at hl
    | cons b rest =>
      obtain ⟨v, r, hvr⟩ := ih rest (by simp at hl; omega)
      exact ⟨b + 256 * v, r, by simp [decFixed, hvr]⟩

/-- C10: every decoder read primitive (`readUnencodedNumber`,
`readUnsignedNumber`, `readSignedNumber`, `readString`) is atomic with respect
to the cursor: when it returns an error, the cursor is left exactly where it
was before the call, and the cursor is advanced — to the suffix past the bytes
the read consumed — only on success. -/
theorem c10_read_primitives_atomic :
    (∀ (nbytes : Nat) (rem : List Nat),
      ((readUnencodedNumber nbytes rem).1 = none →
        (readUnencodedNumber nbytes rem).2 = rem) ∧
      (∀ v, (readUnencodedNumber nbytes rem).1 = some v →
        nbytes ≤ rem.length ∧ (readUnencodedNumber nbytes rem).2 = rem.drop nbytes)) ∧
    (∀ (maxVal : Nat) (rem : List Nat),
      ((readUnsignedNumber maxVal rem).1 = none →
        (readUnsignedNumber maxVal rem).2 = rem) ∧
      (∀ v, (readUnsignedNumber maxVal rem).1 = some v →
        ∃ k, 1 ≤ k ∧ k ≤ rem.length ∧ (readUnsignedNumber maxVal rem).2 = rem.drop k)) ∧
    (∀ (maxVal : Int) (rem : List Nat),
      ((readSignedNumber maxVal rem).1 = none →
        (readSignedNumber maxVal rem).2 = rem) ∧
      (∀ v, (readSignedNumber maxVal rem).1 = some v →
        ∃ k, 1 ≤ k ∧ k ≤ rem.length ∧ (readSignedNumber maxVal rem).2 = rem.drop k)) ∧
    (∀ (size : Nat) (rem : List Nat),
      ((readString size rem).1 = none → (readString size rem).2 = rem) ∧
      (∀ v, (readString size rem).1 = some v →
        size ≤ rem.length ∧ (readString size rem).2 = rem.drop size)) := by
  refine ⟨?_, ?_, ?_, ?_⟩
  · intro nbytes rem
    unfold readUnencodedNumber
    by_cases hlen : rem.length < nbytes
    · simp [hlen]
    · simp only [if_neg hlen]
      cases hdec : decFixed nbytes rem with
      | none =>
        obtain ⟨v, r, hvr⟩ := decFixed_isSome nbytes rem (by omega)
        rw [hvr] at hdec; exact absurd hdec (by simp)
      | some p =>
        obtain ⟨v, r⟩ := p
        obtain ⟨h1, h2⟩ := decFixed_suffix nbytes rem v r hdec
        exact ⟨by simp, fun w hw => ⟨h1, by simp [h2]⟩⟩
  · intro maxVal rem
    unfold readUnsignedNumber
    cases hdec : decULEB rem with
    | none => simp
    | some p =>
      obtain ⟨v, r⟩ := p
      obtain ⟨k, hk1, hk2, hk3⟩ := decULEB_suffix rem v r hdec
      by_cases hmax : maxVal < v
      · simp [hmax]
      · simp only [if_neg hmax]
        exact ⟨by simp, fun w hw => ⟨k, hk1, hk2, by simp [hk3]⟩⟩
  · intro maxVal rem
    unfold readSignedNumber
    cases hdec : decSLEB rem with
    | none => simp
    | some p =>
      obtain ⟨v, r⟩ := p
      obtain ⟨k, hk1, hk2, hk3⟩ := decSLEB_suffix rem v r hdec
      by_cases hmax : maxVal < v
      · simp [hmax]
      · simp only [if_neg hmax]
        exact ⟨by simp, fun w hw => ⟨k, hk1, hk2, by simp [hk3]⟩⟩
  · intro size rem
    unfold readString
    by_cases hlen : rem.length < size
    · simp [hlen]
    · simp only [if_neg hlen]
      exact ⟨by simp, fun w hw => ⟨by omega, by simp⟩⟩

/-- Witness for C10 at concrete inputs: a failing fixed-width read and a
failing string read both leave the cursor exactly in place. -/
theorem c10_read_primitives_atomic_witness :
    (readUnencodedNumber 2 [7]).2 = [7] ∧ (readString 5 [1, 2]).2 = [1, 2] :=
  ⟨(c10_read_primitives_atomic.1 2 [7]).1 (by decide),
   (c10_read_primitives_atomic.2.2.2 5 [1, 2]).1 (by decide)⟩

/-- C1 (code-bug evidence): the claim says that on inputs with a failing read
both build functions return `false` and consume strictly less than the buffer.
The descriptor parser does return `false`, but on an 8-byte buffer the failure
happens only after the whole buffer has been consumed; and the probe-section
parser discards the recursive helper's `false` both in its inlinee loop (line
473) and in its driver loop (line 486): on the 10-byte section that announces
one inlinee and then ends, the helper's failure is swallowed and the function
returns `true` having consumed everything, while on the 1-byte section the
driver loop never terminates (no fuel suffices). -/
theorem c1_error_propagation_code_bug :
    buildGUID2FuncDescMap [0, 0, 0, 0, 0, 0, 0, 0] = some (false, [], []) ∧
    buildAddress2ProbeMap 9 [0, 0, 0, 0, 0, 0, 0, 0, 0, 1] [] =
      some (true, ⟨[], 0, 1, []⟩) ∧
    (∀ fuel, buildAddress2ProbeMap fuel [0] [] = none) := by
  refine ⟨by decide, by decide, ?_⟩
  intro fuel
  induction fuel with
  | zero => rfl
  | succ n ih =>
    cases n with
    | zero => rfl
    | succ m =>
      show decOuter (m + 2) [] ⟨[0], 0, 0, []⟩ = none
      have hstep : decOuter (m + 2) [] ⟨[0], 0, 0, []⟩ =
          decOuter (m + 1) [] ⟨[0], 0, 0, []⟩ := rfl
      rw [hstep]
      exact ih

theorem decProbes_obs_aux : ∀ (n : Nat) (cur1 cur2 : Option (List Site))
    (rem : List Nat) (la rc1 rc2 : Nat) (ps1 ps2 : List DecProbe),
    (decProbes n cur1 ⟨rem, la, rc1, ps1⟩).1 = (decProbes n cur2 ⟨rem, la, rc2, ps2⟩).1 ∧
    (decProbes n cur1 ⟨rem, la, rc1, ps1⟩).2.rem =
      (decProbes n cur2 ⟨rem, la, rc2, ps2⟩).2.rem ∧
    (decProbes n cur1 ⟨rem, la, rc1, ps1⟩).2.lastAddr =
      (decProbes n cur2 ⟨rem, la, rc2, ps2⟩).2.lastAddr ∧
    (decProbes n cur1 ⟨rem, la, rc1, ps1⟩).2.rootChildCount = rc1 ∧
    (decProbes n cur2 ⟨rem, la, rc2, ps2⟩).2.rootChildCount = rc2 := by
  intro n
  induction n with
  | zero =>
    intro cur1 cur2 rem la rc1 rc2 ps1 ps2
    simp [decProbes]
  | succ n ih =>
    intro cur1 cur2 rem la rc1 rc2 ps1 ps2
    simp only [decProbes]
    cases hrec : decProbeRecord rem la with
    | mk o r =>
      cases o with
      | none => simp
      | some fields =>
        obtain ⟨index, kind, attr, addr⟩ := fields
        cases cur1 <;> cases cur2 <;>
          simp only [] <;> exact ih _ _ r addr _ _ _ _

theorem decBody_decChildren_obs : ∀ (fuel : Nat),
    (∀ (filter1 filter2 : List Nat) (cur1 cur2 : Option (List Site)) (st1 st2 : DecSt),
      cur1 ≠ some [] → cur2 ≠ some [] → st1.rem = st2.rem → st1.lastAddr = st2.lastAddr →
      obsOfResult (decBody fuel filter1 cur1 st1) =
        obsOfResult (decBody fuel filter2 cur2 st2)) ∧
    (∀ (n : Nat) (filter1 filter2 : List Nat) (cur1 cur2 : Option (List Site))
      (st1 st2 : DecSt),
      cur1 ≠ some [] → cur2 ≠ some [] → st1.rem = st2.rem → st1.lastAddr = st2.lastAddr →
      (decChildren fuel n filter1 cur1 st1).map DecSt.obs =
        (decChildren fuel n filter2 cur2 st2).map DecSt.obs) := by
  intro fuel
  induction fuel with
  | zero =>
    constructor
    · intro _ _ _ _ _ _ _ _ _ _
      rfl
    · intro n f1 f2 cur1 cur2 st1 st2 h1 h2 hrem hla
      cases n with
      | zero => simp [decChildren, DecSt.obs, hrem, hla]
      | succ n => rfl
  | succ fuel ih =>
    obtain ⟨ihB, ihC⟩ := ih
    constructor
    · intro f1 f2 cur1 cur2 st1 st2 h1 h2 hrem hla
      rcases st1 with ⟨rem1, la1, rc1, ps1⟩
      rcases st2 with ⟨rem2, la2, rc2, ps2⟩
      dsimp only at hrem hla
      subst hrem
      subst hla
      simp only [decBody]
      rw [if_neg h1, if_neg h2]
      rcases hread : readUnsignedNumber u32Max rem1 with ⟨o, r⟩
      cases o with
      | none => simp [obsOfResult, DecSt.obs]
      | some index =>
        dsimp only
        rcases hguid : readUnencodedNumber 8 r with ⟨og, rg⟩
        cases og with
        | none => simp [obsOfResult, DecSt.obs]
        | some guid =>
          dsimp only
          have hif1 : (if cur1 = some [] ∧ f1 ≠ [] ∧ ¬ guid ∈ f1 then none else cur1) =
              cur1 := if_neg (fun hc => h1 hc.1)
          have hif2 : (if cur2 = some [] ∧ f2 ≠ [] ∧ ¬ guid ∈ f2 then none else cur2) =
              cur2 := if_neg (fun hc => h2 hc.1)
          rw [hif1, hif2, if_neg h1, if_neg h2]
          rcases hn1 : readUnsignedNumber u32Max rg with ⟨on1, rn1⟩
          cases on1 with
          | none => simp [obsOfResult, DecSt.obs]
          | some nodeCount =>
            dsimp only
            rcases hn2 : readUnsignedNumber u32Max rn1 with ⟨on2, rn2⟩
            cases on2 with
            | none => simp [obsOfResult, DecSt.obs]
            | some childCount =>
              dsimp only
              obtain ⟨hflag, hrem3, hla3, hrcc1, hrcc2⟩ :=
                decProbes_obs_aux nodeCount
                  (cur1.map (fun path => path ++ [⟨guid, index⟩]))
                  (cur2.map (fun path => path ++ [⟨guid, index⟩]))
                  rn2 la1 rc1 rc2 ps1 ps2
              rcases hp1 : decProbes nodeCount
                  (cur1.map (fun path => path ++ [⟨guid, index⟩]))
                  ⟨rn2, la1, rc1, ps1⟩ with ⟨flag1, st3a⟩
              rcases hp2 : decProbes nodeCount
                  (cur2.map (fun path => path ++ [⟨guid, index⟩]))
                  ⟨rn2, la1, rc2, ps2⟩ with ⟨flag2, st3b⟩
              rw [hp1, hp2]
              rw [hp1, hp2] at hflag hrem3 hla3
              dsimp only at hflag hrem3 hla3
              cases flag1 with
              | false =>
                cases flag2 with
                | false => simp [obsOfResult, DecSt.obs, hrem3, hla3]
                | true => exact absurd hflag (by simp)
              | true =>
                cases flag2 with
                | false => exact absurd hflag (by simp)
                | true =>
                  dsimp only
                  have hcur1m : cur1.map (fun path => path ++ [⟨guid, index⟩]) ≠
                      some [] := by
                    cases cur1 <;> simp
                  have hcur2m : cur2.map (fun path => path ++ [⟨guid, index⟩]) ≠
                      some [] := by
                    cases cur2 <;> simp
                  have hmap := ihC childCount f1 f2 _ _ st3a st3b hcur1m hcur2m hrem3 hla3
                  rcases hc1 : decChildren fuel childCount f1
                      (cur1.map (fun path => path ++ [⟨guid, index⟩])) st3a with _ | s1 <;>
                    rcases hc2 : decChildren fuel childCount f2
                      (cur2.map (fun path => path ++ [⟨guid, index⟩])) st3b with _ | s2 <;>
                    rw [hc1, hc2] at hmap ⊢
                  · simp at hmap
                  · simp at hmap
                  · simp only [Option.map_some', Option.some.injEq] at hmap
                    simp [obsOfResult, hmap]
    · intro n f1 f2 cur1 cur2 st1 st2 h1 h2 hrem hla
      cases n with
      | zero => simp [decChildren, DecSt.obs, hrem, hla]
      | succ n =>
        simp only [decChildren]
        have hb := ihB f1 f2 cur1 cur2 st1 st2 h1 h2 hrem hla
        cases hb1 : decBody fuel f1 cur1 st1 with
        | none =>
          cases hb2 : decBody fuel f2 cur2 st2 with
          | none => rfl
          | some p2 =>
            rw [hb1, hb2] at hb
            simp [obsOfResult] at hb
        | some p1 =>
          cases hb2 : decBody fuel f2 cur2 st2 with
          | none =>
            rw [hb1, hb2] at hb
            simp [obsOfResult] at hb
          | some p2 =>
            rw [hb1, hb2] at hb
            simp only [obsOfResult, Option.map_some', Option.some.injEq,
              Prod.mk.injEq] at hb
            have hrem2 : p1.2.rem = p2.2.rem := congrArg Prod.fst hb.2
            have hla2 : p1.2.lastAddr = p2.2.lastAddr := congrArg Prod.snd hb.2
            exact ihC n f1 f2 cur1 cur2 p1.2 p2.2 h1 h2 hrem2 hla2

/-- C4: the decoder's `LastAddr` cursor is initialised to 0 once per
probe-section parse (i); threaded unchanged across top-level function-body
records by the driver loop (ii); set to the just-decoded probe's address after
every probe record — the update happens in the filtered branch too (iii); and
the cursor (both the byte cursor and `LastAddr`) is shared between filtered
and unfiltered parses: the observables of the parse do not depend on whether
`Cur` was discarded (iv, v). -/
theorem c4_lastAddr_cursor_discipline :
    (∀ (fuel : Nat) (buf filter : List Nat),
      buildAddress2ProbeMap fuel buf filter = decOuter fuel filter ⟨buf, 0, 0, []⟩) ∧
    (∀ (fuel : Nat) (filter : List Nat) (st : DecSt),
      decOuter (fuel + 1) filter st =
        if st.rem = [] then some (true, st)
        else
          match decBody fuel filter (some []) st with
          | none => none
          | some p => decOuter fuel filter p.2) ∧
    (∀ (n : Nat) (cur : Option (List Site)) (st : DecSt)
      (index kind attr addr : Nat) (r : List Nat),
      decProbeRecord st.rem st.lastAddr = (some (index, kind, attr, addr), r) →
      ∃ ps2, decProbes (n + 1) cur st =
        decProbes n cur { st with rem := r, lastAddr := addr, probes := ps2 }) ∧
    (∀ (n : Nat) (cur1 cur2 : Option (List Site)) (rem : List Nat) (la rc1 rc2 : Nat)
      (ps1 ps2 : List DecProbe),
      (decProbes n cur1 ⟨rem, la, rc1, ps1⟩).1 = (decProbes n cur2 ⟨rem, la, rc2, ps2⟩).1 ∧
      (decProbes n cur1 ⟨rem, la, rc1, ps1⟩).2.obs =
        (decProbes n cur2 ⟨rem, la, rc2, ps2⟩).2.obs) ∧
    (∀ (fuel : Nat) (filter1 filter2 : List Nat) (cur1 cur2 : Option (List Site))
      (st1 st2 : DecSt), cur1 ≠ some [] → cur2 ≠ some [] →
      st1.rem = st2.rem → st1.lastAddr = st2.lastAddr →
      obsOfResult (decBody fuel filter1 cur1 st1) =
        obsOfResult (decBody fuel filter2 cur2 st2)) := by
  refine ⟨fun _ _ _ => rfl, ?_, ?_, ?_, ?_⟩
  · intro fuel filter st
    simp only [decOuter]
    by_cases h : st.rem = []
    · simp [h]
    · simp only [if_neg h]
      cases decBody fuel filter (some []) st with
      | none => rfl
      | some p => rfl
  · intro n cur st index kind attr addr r hrec
    cases cur with
    | none =>
      refine ⟨st.probes, ?_⟩
      simp only [decProbes]
      rw [hrec]
    | some path =>
      refine ⟨st.probes ++
        [⟨addr, (path.getLastD ⟨0, 0⟩).guid, index, kind, attr, path⟩], ?_⟩
      simp only [decProbes]
      rw [hrec]
  · intro n cur1 cur2 rem la rc1 rc2 ps1 ps2
    obtain ⟨hflag, hrem, hla, _, _⟩ := decProbes_obs_aux n cur1 cur2 rem la rc1 rc2 ps1 ps2
    exact ⟨hflag, Prod.ext hrem hla⟩
  · exact fun fuel f1 f2 cur1 cur2 st1 st2 h1 h2 h3 h4 =>
      (decBody_decChildren_obs fuel).1 f1 f2 cur1 cur2 st1 st2 h1 h2 h3 h4

/-- Witness for C4 at a concrete probe record (`index 0`, absolute address
`0x0807060504030201`): the state passed to the remaining records carries the
decoded address as `LastAddr`. -/
theorem c4_lastAddr_cursor_discipline_witness :
    ∃ ps2, decProbes 1 (some [⟨7, 0⟩]) ⟨[0, 0, 1, 2, 3, 4, 5, 6, 7, 8], 0, 0, []⟩ =
      decProbes 0 (some [⟨7, 0⟩]) ⟨[], 578437695752307201, 0, ps2⟩ :=
  c4_lastAddr_cursor_discipline.2.2.1 0 (some [⟨7, 0⟩])
    ⟨[0, 0, 1, 2, 3, 4, 5, 6, 7, 8], 0, 0, []⟩ 0 0 0 578437695752307201 [] (by decide)

theorem codePathTail_eq_zip : ∀ (rest : List Site) (index pguid : Nat),
    codePathTail index rest pguid =
      List.zipWith (fun idx g => (⟨g, idx⟩ : Site))
        (index :: rest.map Site.idx) (rest.map Site.guid ++ [pguid]) := by
  intro rest
  induction rest with
  | nil => intro index pguid; simp [codePathTail]
  | cons e rest ih =>
    intro index pguid
    simp [codePathTail, ih e.idx pguid]

theorem findChild_upsertChild (k : Site) (t : EncTree) :
    ∀ (cs : List (Site × EncTree)), findChild k (upsertChild k t cs) = some t := by
  intro cs
  induction cs with
  | nil => simp [upsertChild, findChild]
  | cons c cs ih =>
    obtain ⟨k2, t2⟩ := c
    by_cases h : k2 = k
    · simp [upsertChild, findChild, h]
    · simp [upsertChild, findChild, h, ih]

theorem probesAt_emptyEncNode : ∀ (path : List Site) (s : Site),
    probesAt path (emptyEncNode s) = [] := by
  intro path s
  cases path with
  | nil => rfl
  | cons k rest => simp [emptyEncNode, probesAt, findChild]

theorem probesAt_insertPath : ∀ (path : List Site) (t : EncTree) (p : EncProbe),
    probesAt path (insertPath path t p) = probesAt path t ++ [p] := by
  intro path
  induction path with
  | nil =>
    intro t p
    obtain ⟨g, ps, cs⟩ := t
    simp [insertPath, probesAt]
  | cons k rest ih =>
    intro t p
    obtain ⟨g, ps, cs⟩ := t
    simp only [insertPath, probesAt, findChild_upsertChild]
    cases hfind : findChild k cs with
    | none => simp [hfind, ih, probesAt_emptyEncNode]
    | some child => simp [hfind, ih]

/-- C6: `addPseudoProbe(p, s)` appends `p` to the node reached from the root
by the path the claim describes — child `(0, fn1)` (or `(0, p.guid)` for an
empty stack, where the probe then lands directly), then for each subsequent
stack entry the child keyed by the previous entry's callsite index and the
current entry's GUID, and finally the child keyed by the last entry's
callsite index and `p.guid`; existing nodes on the path are reused, missing
ones created. -/
theorem c6_addPseudoProbe_follows_spec_path :
    (∀ (root : EncTree) (p : EncProbe) (stack : List Site),
      addPseudoProbe root p stack = insertPath (specPath p.guid stack) root p) ∧
    (∀ (path : List Site) (t : EncTree) (p : EncProbe),
      probesAt path (insertPath path t p) = probesAt path t ++ [p]) := by
  constructor
  · intro root p stack
    unfold addPseudoProbe
    cases stack with
    | nil => rfl
    | cons e rest => simp [codePath, specPath, codePathTail_eq_zip]
  · exact probesAt_insertPath

/-- C5: for probes with `type ≤ 15` and `attributes ≤ 7`, the decoder's
decomposition of the packed byte (`Value & 0xF`, `(Value & 0x70) >> 4`,
`Value & 0x80`, cf. lines 444-448) recovers the encoded fields, and the delta
flag is set exactly when a previous probe was supplied at emission time. -/
theorem c5_packed_byte_roundtrip (type attributes : Nat) (hasLastProbe : Bool)
    (ht : type ≤ 15) (ha : attributes ≤ 7) :
    packedByte type attributes hasLastProbe % 16 = type ∧
    packedByte type attributes hasLastProbe / 16 % 8 = attributes ∧
    (128 ≤ packedByte type attributes hasLastProbe ↔ hasLastProbe = true) ∧
    packedByte type attributes hasLastProbe < 256 := by
  interval_cases type <;> interval_cases attributes <;> cases hasLastProbe <;>
    simp [packedByte]

/-- Witness for C5 at `type = 5`, `attributes = 3`, with a previous probe. -/
theorem c5_packed_byte_roundtrip_witness :
    packedByte 5 3 true % 16 = 5 ∧ packedByte 5 3 true / 16 % 8 = 3 ∧
    (128 ≤ packedByte 5 3 true ↔ true = true) ∧ packedByte 5 3 true < 256 :=
  c5_packed_byte_roundtrip 5 3 true (by decide) (by decide)

theorem encodeFixedLE_length : ∀ (n v : Nat), (encodeFixedLE n v).length = n := by
  intro n
  induction n with
  | zero => intro v; rfl
  | succ n ih => intro v; simp [encodeFixedLE, ih]

/-- C7: a probe record with the delta flag set computes its address as
`LastAddr + offset` with wrapping 64-bit two's-complement arithmetic on the
SLEB128-decoded signed offset; with the flag clear the fixed 8-byte
little-endian field is taken as the address unchanged. -/
theorem c7_probe_record_address (i : Nat) (la : Nat) (rest : List Nat)
    (hi : i < 2 ^ 32) :
    (∀ (b : Nat), 128 ≤ b →
      ∀ (d : Int), -(2 ^ 63) ≤ d → d < 2 ^ 63 →
      decProbeRecord (encodeULEB i ++ b :: (encodeSLEB d ++ rest)) la =
        (some (i, b % 16, b / 16 % 8, wrap64 ((la : Int) + d)), rest)) ∧
    (∀ (b : Nat), b < 128 →
      ∀ (a : Nat), a < 2 ^ 64 →
      decProbeRecord (encodeULEB i ++ b :: (encodeFixedLE 8 a ++ rest)) la =
        (some (i, b % 16, b / 16 % 8, a), rest)) := by
  constructor
  · intro b hb d hd1 hd2
    simp only [decProbeRecord, readUnsignedNumber, decULEB_encodeULEB]
    have hmax : ¬ (u32Max < i) := by simp [u32Max]; omega
    simp only [if_neg hmax]
    simp only [readUnencodedNumber, decFixed]
    have hlen : ¬ ((b :: (encodeSLEB d ++ rest)).length < 1) := by simp
    simp only [if_neg hlen]
    have hflag : 128 ≤ b + 256 * 0 := by omega
    simp only [if_pos hflag]
    simp only [readSignedNumber, decSLEB_encodeSLEB]
    have hmax2 : ¬ (i64Max < d) := by simp [i64Max]; omega
    simp only [if_neg hmax2]
    norm_num
  · intro b hb a ha
    simp only [decProbeRecord, readUnsignedNumber, decULEB_encodeULEB]
    have hmax : ¬ (u32Max < i) := by simp [u32Max]; omega
    simp only [if_neg hmax]
    simp only [readUnencodedNumber, decFixed]
    have hlen : ¬ ((b :: (encodeFixedLE 8 a ++ rest)).length < 1) := by simp
    simp only [if_neg hlen]
    have hflag : ¬ (128 ≤ b + 256 * 0) := by omega
    simp only [if_neg hflag]
    have hlen2 : ¬ ((encodeFixedLE 8 a ++ rest).length < 8) := by
      simp [encodeFixedLE_length]
    simp only [if_neg hlen2, decFixed_encodeFixedLE]
    have hmod : a % 256 ^ 8 = a :=
      Nat.mod_eq_of_lt (lt_of_lt_of_le ha (by norm_num))
    rw [hmod]
    norm_num

/-- Witness for C7: from `LastAddr = 1` a delta of `-3` wraps to
`2 ^ 64 - 2`, and an absolute record decodes its little-endian field as is. -/
theorem c7_probe_record_address_witness :
    decProbeRecord (encodeULEB 1 ++ 130 :: (encodeSLEB (-3) ++ [9])) 1 =
      (some (1, 2, 0, 18446744073709551614), [9]) ∧
    decProbeRecord (encodeULEB 1 ++ 2 :: (encodeFixedLE 8 4096 ++ [9])) 1 =
      (some (1, 2, 0, 4096), [9]) := by
  constructor
  · have h := (c7_probe_record_address 1 1 [9] (by norm_num)).1 130 (by norm_num)
      (-3) (by norm_num) (by norm_num)
    rw [h]
    norm_num [wrap64]
    decide
  · have h := (c7_probe_record_address 1 1 [9] (by norm_num)).2 2 (by norm_num)
      4096 (by norm_num)
    rw [h]

theorem extractRecords_skip (x : EmitItem) (rest : List EmitItem)
    (hx : ∀ b, x ≠ .int8 b) :
    extractRecords (x :: rest) = extractRecords rest := by
  cases x with
  | int8 b => exact absurd rfl (hx b)
  | uleb n => cases rest <;> rfl
  | int64 n => cases rest <;> rfl
  | sleb d => cases rest <;> rfl
  | addrFrag a b => cases rest <;> rfl
  | symbolVal l s => cases rest <;> rfl

theorem lastOf_append (xs ys : List EncProbe) (lastP : Option EncProbe) :
    lastOf (xs ++ ys) lastP = lastOf ys (lastOf xs lastP) := by
  simp [lastOf, List.foldl_append]

theorem probeChain_append (evalDelta : Nat → Nat → Option Int) (ptrSize : Nat) :
    ∀ (xs ys : List EncProbe) (lastP : Option EncProbe),
    probeChain evalDelta ptrSize lastP (xs ++ ys) =
      probeChain evalDelta ptrSize lastP xs ++
        probeChain evalDelta ptrSize (lastOf xs lastP) ys := by
  intro xs
  induction xs with
  | nil => intro ys lastP; simp [probeChain, lastOf]
  | cons x xs ih =>
    intro ys lastP
    simp only [List.cons_append, probeChain, List.append_eq]
    rw [ih ys (some x)]
    simp [lastOf]

theorem mem_insertSorted (x y : Site × EncTree) :
    ∀ (l : List (Site × EncTree)), y ∈ insertSorted x l → y = x ∨ y ∈ l := by
  intro l
  induction l with
  | nil => intro h; simpa [insertSorted] using h
  | cons z rest ih =>
    intro h
    by_cases hle : siteLe x.1 z.1
    · simp only [insertSorted, if_pos hle, List.mem_cons] at h
      rcases h with h | h | h
      · exact Or.inl h
      · exact Or.inr (by simp [h])
      · exact Or.inr (by simp [h])
    · simp only [insertSorted, if_neg hle, List.mem_cons] at h
      rcases h with h | h
      · exact Or.inr (by simp [h])
      · rcases ih h with h2 | h2
        · exact Or.inl h2
        · exact Or.inr (by simp [h2])

theorem mem_sortSites (y : Site × EncTree) :
    ∀ (l : List (Site × EncTree)), y ∈ sortSites l → y ∈ l := by
  intro l
  induction l with
  | nil => intro h; simp [sortSites] at h
  | cons x rest ih =>
    intro h
    rcases mem_insertSorted x y (sortSites rest) h with h2 | h2
    · simp [h2]
    · simp [ih h2]

theorem extract_emitProbeList (evalDelta : Nat → Nat → Option Int) (ptrSize : Nat) :
    ∀ (ps : List EncProbe) (lastP : Option EncProbe) (tail : List EmitItem),
    extractRecords ((emitProbeList evalDelta ptrSize ps lastP).1 ++ tail) =
      probeChain evalDelta ptrSize lastP ps ++ extractRecords tail ∧
    (emitProbeList evalDelta ptrSize ps lastP).2 = lastOf ps lastP := by
  intro ps
  induction ps with
  | nil =>
    intro lastP tail
    simp [emitProbeList, probeChain, lastOf]
  | cons p rest ih =>
    intro lastP tail
    constructor
    · simp only [emitProbeList, emitProbe, List.append_assoc, List.cons_append]
      rw [extractRecords_skip (.uleb p.index) _ (by intro b; simp)]
      cases lastP with
      | none =>
        simp only [Option.isSome_none, extractRecords, List.append_eq, List.nil_append]
        rw [(ih (some p) tail).1]
        simp [probeChain, addrItem]
      | some lp =>
        cases hd : evalDelta p.label lp.label with
        | none =>
          simp only [hd, Option.isSome_some, extractRecords, List.append_eq, List.nil_append]
          rw [(ih (some p) tail).1]
          simp [probeChain, addrItem, hd]
        | some d =>
          simp only [hd, Option.isSome_some, extractRecords, List.append_eq, List.nil_append]
          rw [(ih (some p) tail).1]
          simp [probeChain, addrItem, hd]
    · simp only [emitProbeList]
      rw [(ih (some p) []).2]
      simp [lastOf]

theorem sizeOf_insertSorted (x : Site × EncTree) :
    ∀ (l : List (Site × EncTree)), sizeOf (insertSorted x l) = 1 + sizeOf x + sizeOf l := by
  intro l
  induction l with
  | nil => simp [insertSorted]
  | cons y rest ih =>
    simp only [insertSorted]
    split
    · simp
    · simp [ih]
      omega

theorem sizeOf_sortSites :
    ∀ (l : List (Site × EncTree)), sizeOf (sortSites l) = sizeOf l := by
  intro l
  induction l with
  | nil => rfl
  | cons x rest ih =>
    simp [sortSites, sizeOf_insertSorted, ih]

theorem extract_emit_chain (evalDelta : Nat → Nat → Option Int) (ptrSize : Nat) :
    ∀ (n : Nat),
    (∀ (t : EncTree), sizeOf t ≤ n →
      ∃ ps : List EncProbe,
        (∀ p ∈ ps, ProbeInTree p t) ∧
        (∀ (g : Nat) (ps0 : List EncProbe) (cs : List (Site × EncTree)),
          t = .node g ps0 cs → g ≠ 0 → ∃ psc, ps = ps0 ++ psc) ∧
        (∀ (lastP : Option EncProbe) (tail : List EmitItem),
          extractRecords ((emitTree evalDelta ptrSize t lastP).1 ++ tail) =
            probeChain evalDelta ptrSize lastP ps ++ extractRecords tail ∧
          (emitTree evalDelta ptrSize t lastP).2 = lastOf ps lastP)) ∧
    (∀ (cs : List (Site × EncTree)), sizeOf cs ≤ n →
      ∃ ps : List EncProbe,
        (∀ p ∈ ps, ∃ s c, (s, c) ∈ cs ∧ ProbeInTree p c) ∧
        (∀ (parentGuid : Nat) (lastP : Option EncProbe) (tail : List EmitItem),
          extractRecords
              ((emitChildList evalDelta ptrSize parentGuid cs lastP).1 ++ tail) =
            probeChain evalDelta ptrSize lastP ps ++ extractRecords tail ∧
          (emitChildList evalDelta ptrSize parentGuid cs lastP).2 = lastOf ps lastP)) := by
  intro n
  induction n using Nat.strong_induction_on with
  | _ n ih =>
    constructor
    · intro t hsize
      obtain ⟨g, ps0, cs⟩ := t
      have hcs : sizeOf cs < n := by
        simp at hsize
        omega
      obtain ⟨psc, hmemc, hchainc⟩ :=
        (ih (sizeOf cs) hcs).2 (sortSites cs) (le_of_eq (sizeOf_sortSites cs))
      by_cases hg : g ≠ 0
      · refine ⟨ps0 ++ psc, ?_, ?_, ?_⟩
        · intro p hp
          rcases List.mem_append.mp hp with hp | hp
          · exact ProbeInTree.here hp
          · obtain ⟨s, c, hsc, hin⟩ := hmemc p hp
            exact ProbeInTree.there (mem_sortSites (s, c) cs hsc) hin
        · intro g2 ps2 cs2 heq hg2
          exact ⟨psc, by injection heq with h1 h2 h3; rw [h2]⟩
        · intro lastP tail
          simp only [emitTree, if_pos hg]
          obtain ⟨hpr1, hpr2⟩ := extract_emitProbeList evalDelta ptrSize ps0 lastP
            ((emitChildList evalDelta ptrSize g (sortSites cs)
              (emitProbeList evalDelta ptrSize ps0 lastP).2).1 ++ tail)
          constructor
          · simp only [List.append_assoc, List.cons_append]
            rw [extractRecords_skip (.int64 g) _ (by intro b; simp),
              extractRecords_skip (.uleb ps0.length) _ (by intro b; simp),
              extractRecords_skip (.uleb cs.length) _ (by intro b; simp)]
            rw [List.nil_append]
            rw [hpr1, hpr2]
            rw [(hchainc g (lastOf ps0 lastP) tail).1]
            rw [probeChain_append, List.append_assoc]
          · rw [lastOf_append]
            rw [hpr2]
            exact (hchainc g (lastOf ps0 lastP) tail).2
      · push_neg at hg
        subst hg
        refine ⟨psc, ?_, ?_, ?_⟩
        · intro p hp
          obtain ⟨s, c, hsc, hin⟩ := hmemc p hp
          exact ProbeInTree.there (mem_sortSites (s, c) cs hsc) hin
        · intro g2 ps2 cs2 heq hg2
          injection heq with h1 h2 h3
          exact absurd h1.symm hg2
        · intro lastP tail
          have h0 : ¬ ((0 : Nat) ≠ 0) := by simp
          simp only [emitTree, if_neg h0, List.nil_append]
          exact ⟨(hchainc 0 lastP tail).1, (hchainc 0 lastP tail).2⟩
    · intro cs hsize
      cases cs with
      | nil =>
        refine ⟨[], by simp, ?_⟩
        intro parentGuid lastP tail
        simp [emitChildList, probeChain, lastOf]
      | cons hd rest =>
        obtain ⟨s, c⟩ := hd
        have hc : sizeOf c < n := by
          simp at hsize
          omega
        have hrest : sizeOf rest < n := by
          simp at hsize
          omega
        obtain ⟨psc, hmemc, _, hchainc⟩ := (ih (sizeOf c) hc).1 c (le_refl _)
        obtain ⟨psr, hmemr, hchainr⟩ := (ih (sizeOf rest) hrest).2 rest (le_refl _)
        refine ⟨psc ++ psr, ?_, ?_⟩
        · intro p hp
          rcases List.mem_append.mp hp with hp | hp
          · exact ⟨s, c, by simp, hmemc p hp⟩
          · obtain ⟨s2, c2, hsc2, hin2⟩ := hmemr p hp
            exact ⟨s2, c2, by simp [hsc2], hin2⟩
        · intro parentGuid lastP tail
          simp only [emitChildList]
          constructor
          · simp only [List.append_assoc]
            have hskip : extractRecords
                ((if parentGuid ≠ 0 then [EmitItem.uleb s.idx] else []) ++
                  ((emitTree evalDelta ptrSize c lastP).1 ++
                    ((emitChildList evalDelta ptrSize parentGuid rest
                      (emitTree evalDelta ptrSize c lastP).2).1 ++ tail))) =
                extractRecords ((emitTree evalDelta ptrSize c lastP).1 ++
                  ((emitChildList evalDelta ptrSize parentGuid rest
                    (emitTree evalDelta ptrSize c lastP).2).1 ++ tail)) := by
              by_cases hpg : parentGuid ≠ 0
              · simp only [if_pos hpg, List.cons_append, List.nil_append]
                exact extractRecords_skip (.uleb s.idx) _ (by intro b; simp)
              · simp [if_neg hpg]
            rw [hskip]
            rw [(hchainc lastP ((emitChildList evalDelta ptrSize parentGuid rest
              (emitTree evalDelta ptrSize c lastP).2).1 ++ tail)).1]
            rw [(hchainc lastP []).2]
            rw [(hchainr parentGuid (lastOf psc lastP) tail).1]
            rw [probeChain_append, List.append_assoc]
          · rw [lastOf_append]
            rw [(hchainc lastP []).2]
            exact (hchainr parentGuid (lastOf psc lastP) tail).2

theorem packedByte_flag (type attributes : Nat) (ht : type ≤ 15) (ha : attributes ≤ 7) :
    packedByte type attributes false < 128 ∧ 128 ≤ packedByte type attributes true := by
  interval_cases type <;> interval_cases attributes <;> decide

theorem probeChain_tail_flags (evalDelta : Nat → Nat → Option Int) (ptrSize : Nat) :
    ∀ (ps : List EncProbe), (∀ p ∈ ps, p.type ≤ 15 ∧ p.attributes ≤ 7) →
    ∀ (q : EncProbe) (r : Nat × EmitItem),
      r ∈ probeChain evalDelta ptrSize (some q) ps → 128 ≤ r.1 := by
  intro ps
  induction ps with
  | nil => intro _ q r h; simp [probeChain] at h
  | cons p rest ih =>
    intro hb q r h
    simp only [probeChain, List.mem_cons] at h
    rcases h with h | h
    · have := (packedByte_flag p.type p.attributes (hb p (by simp)).1
        (hb p (by simp)).2).2
      simp [h]
      exact this
    · exact ih (fun x hx => hb x (by simp [hx])) p r h

theorem probeChain_get_succ (evalDelta : Nat → Nat → Option Int) (ptrSize : Nat) :
    ∀ (ps : List EncProbe) (lastP : Option EncProbe) (j : Nat) (p q : EncProbe),
    ps.get? j = some q → ps.get? (j + 1) = some p →
    (probeChain evalDelta ptrSize lastP ps).get? (j + 1) =
      some (packedByte p.type p.attributes true, addrItem evalDelta ptrSize p (some q)) := by
  intro ps
  induction ps with
  | nil => intro lastP j p q h1 _; simp at h1
  | cons x rest ih =>
    intro lastP j p q h1 h2
    cases j with
    | zero =>
      simp only [List.get?] at h1 h2
      injection h1 with h1
      subst h1
      cases rest with
      | nil => simp at h2
      | cons y rest2 =>
        simp only [List.get?] at h2
        injection h2 with h2
        subst h2
        rfl
    | succ j =>
      simp only [List.get?] at h1 h2
      exact ih (some x) j p q h1 h2

/-- C8: each output section carries its own `LastProbe` cursor, reset at the
start of that section's walk, so the record stream of every emitted section
is a `probeChain` from a null cursor: the first probe record has the delta
flag clear and carries an absolute symbolic code address, and every later
record has the delta flag set and is relative to the previously emitted
probe, across node and function boundaries. -/
theorem c8_sections_reset_lastProbe (evalDelta : Nat → Nat → Option Int)
    (ptrSize : Nat) (secAvail : Nat → Bool) (divisions : List (Nat × EncTree))
    (hwf : ∀ d ∈ divisions, ∀ p : EncProbe,
      ProbeInTree p d.2 → p.type ≤ 15 ∧ p.attributes ≤ 7) :
    ∀ items ∈ emitSections evalDelta ptrSize secAvail divisions,
    ∃ ps : List EncProbe,
      extractRecords items = probeChain evalDelta ptrSize none ps ∧
      (∀ p, ps.get? 0 = some p →
        (extractRecords items).get? 0 =
          some (packedByte p.type p.attributes false,
            EmitItem.symbolVal p.label ptrSize) ∧
        packedByte p.type p.attributes false < 128) ∧
      (∀ r ∈ (extractRecords items).drop 1, 128 ≤ r.1) ∧
      (∀ (j : Nat) (p q : EncProbe), ps.get? j = some q → ps.get? (j + 1) = some p →
        (extractRecords items).get? (j + 1) =
          some (packedByte p.type p.attributes true,
            addrItem evalDelta ptrSize p (some q))) := by
  induction divisions with
  | nil => intro items h; simp [emitSections] at h
  | cons d rest ih =>
    intro items hmem
    simp only [emitSections, List.mem_append] at hmem
    rcases hmem with hmem | hmem
    · by_cases hav : secAvail d.1
      · simp only [if_pos hav, List.mem_singleton] at hmem
        subst hmem
        obtain ⟨ps, hmemt, _, hchain⟩ :=
          (extract_emit_chain evalDelta ptrSize (sizeOf d.2)).1 d.2 (le_refl _)
        obtain ⟨hc1, _⟩ := hchain none []
        rw [List.append_nil] at hc1
        rw [show extractRecords ([] : List EmitItem) = [] from rfl,
          List.append_nil] at hc1
        have hbounds : ∀ p ∈ ps, p.type ≤ 15 ∧ p.attributes ≤ 7 :=
          fun p hp => hwf d (by simp) p (hmemt p hp)
        refine ⟨ps, hc1, ?_, ?_, ?_⟩
        · intro p hp
          cases ps with
          | nil => simp at hp
          | cons x rest2 =>
            simp only [List.get?] at hp
            injection hp with hp
            subst hp
            rw [hc1]
            exact ⟨rfl, (packedByte_flag x.type x.attributes
              (hbounds x (by simp)).1 (hbounds x (by simp)).2).1⟩
        · intro r hr
          rw [hc1] at hr
          cases ps with
          | nil => simp [probeChain] at hr
          | cons x rest2 =>
            simp only [probeChain, List.drop] at hr
            exact probeChain_tail_flags evalDelta ptrSize rest2
              (fun y hy => hbounds y (by simp [hy])) x r hr
        · intro j p q h1 h2
          rw [hc1]
          exact probeChain_get_succ evalDelta ptrSize ps none j p q h1 h2
      · simp [if_neg hav] at hmem
    · exact ih (fun d2 hd2 => hwf d2 (by simp [hd2])) items hmem

theorem c8_sections_reset_lastProbe_witness :
    ∃ ps : List EncProbe,
      extractRecords (emitTree (fun _ _ => some 1) 8
          (EncTree.node 3 [⟨1, 5, 2, 11, 3⟩] []) none).1 =
        probeChain (fun _ _ => some 1) 8 none ps ∧
      (∀ p, ps.get? 0 = some p →
        (extractRecords (emitTree (fun _ _ => some 1) 8
            (EncTree.node 3 [⟨1, 5, 2, 11, 3⟩] []) none).1).get? 0 =
          some (packedByte p.type p.attributes false, EmitItem.symbolVal p.label 8) ∧
        packedByte p.type p.attributes false < 128) ∧
      (∀ r ∈ (extractRecords (emitTree (fun _ _ => some 1) 8
          (EncTree.node 3 [⟨1, 5, 2, 11, 3⟩] []) none).1).drop 1, 128 ≤ r.1) ∧
      (∀ (j : Nat) (p q : EncProbe), ps.get? j = some q → ps.get? (j + 1) = some p →
        (extractRecords (emitTree (fun _ _ => some 1) 8
            (EncTree.node 3 [⟨1, 5, 2, 11, 3⟩] []) none).1).get? (j + 1) =
          some (packedByte p.type p.attributes true,
            addrItem (fun _ _ => some 1) 8 p (some q))) := by
  have hwf : ∀ d ∈ [((0 : Nat), EncTree.node 3 [⟨1, 5, 2, 11, 3⟩] [])],
      ∀ p : EncProbe, ProbeInTree p d.2 → p.type ≤ 15 ∧ p.attributes ≤ 7 := by
    intro d hd p hp
    simp only [List.mem_singleton] at hd
    subst hd
    cases hp with
    | here hmem =>
      simp only [List.mem_singleton] at hmem
      subst hmem
      decide
    | there hcs _ => simp at hcs
  have hmem : (emitTree (fun _ _ => some 1) 8
      (EncTree.node 3 [⟨1, 5, 2, 11, 3⟩] []) none).1 ∈
      emitSections (fun _ _ => some 1) 8 (fun _ => true)
        [((0 : Nat), EncTree.node 3 [⟨1, 5, 2, 11, 3⟩] [])] := by
    simp [emitSections]
  exact c8_sections_reset_lastProbe (fun _ _ => some 1) 8 (fun _ => true)
    [((0 : Nat), EncTree.node 3 [⟨1, 5, 2, 11, 3⟩] [])] hwf _ hmem

theorem siteLe_total (a b : Site) : siteLe a b ∨ siteLe b a := by
  simp only [siteLe]; omega

theorem siteLe_trans (a b c : Site) : siteLe a b → siteLe b c → siteLe a c := by
  simp only [siteLe]; omega

theorem sorted_insertSorted (x : Site × EncTree) :
    ∀ l : List (Site × EncTree),
    List.Sorted (fun a b : Site × EncTree => siteLe a.1 b.1) l →
    List.Sorted (fun a b : Site × EncTree => siteLe a.1 b.1) (insertSorted x l) := by
  intro l
  induction l with
  | nil => intro _; simp [insertSorted]
  | cons y rest ih =>
    intro h
    rw [List.sorted_cons] at h
    by_cases hle : siteLe x.1 y.1
    · simp only [insertSorted, if_pos hle]
      rw [List.sorted_cons]
      refine ⟨?_, List.sorted_cons.mpr h⟩
      intro z hz
      rcases List.mem_cons.mp hz with hz | hz
      · subst hz; exact hle
      · exact siteLe_trans x.1 y.1 z.1 hle (h.1 z hz)
    · simp only [insertSorted, if_neg hle]
      rw [List.sorted_cons]
      refine ⟨?_, ih h.2⟩
      intro z hz
      rcases mem_insertSorted x z rest hz with hz | hz
      · subst hz
        rcases siteLe_total z.1 y.1 with h2 | h2
        · exact absurd h2 hle
        · exact h2
      · exact h.1 z hz

theorem sorted_sortSites :
    ∀ l : List (Site × EncTree),
    List.Sorted (fun a b : Site × EncTree => siteLe a.1 b.1) (sortSites l) := by
  intro l
  induction l with
  | nil => simp [sortSites]
  | cons x rest ih => exact sorted_insertSorted x (sortSites rest) ih

theorem perm_insertSorted (x : Site × EncTree) :
    ∀ l : List (Site × EncTree), (insertSorted x l).Perm (x :: l) := by
  intro l
  induction l with
  | nil => simp [insertSorted]
  | cons y rest ih =>
    by_cases hle : siteLe x.1 y.1
    · simp [insertSorted, if_pos hle]
    · simp only [insertSorted, if_neg hle]
      exact (ih.cons y).trans (List.Perm.swap x y rest)

theorem perm_sortSites :
    ∀ l : List (Site × EncTree), (sortSites l).Perm l := by
  intro l
  induction l with
  | nil => simp [sortSites]
  | cons x rest ih =>
    exact (perm_insertSorted x (sortSites rest)).trans (ih.cons x)

/-- C2 counterexample: a node with children at inline sites `(guid 1, index 5)`
and `(guid 2, index 1)`.  The emitter's `std::map<InlineSite, ...>` key is the
tuple `(GUID, Index)` with GUID compared first, so the child with guid 1 is
emitted first — its GUID header `int64 1` precedes `int64 2` in the item
stream — although the claimed `(callsite_index, guid)` order would put the
guid-2 child (callsite index 1) before the guid-1 child (callsite index 5):
`claimSiteLe ⟨2,1⟩ ⟨1,5⟩` holds, its converse fails, and the iteration order
the code actually uses is not sorted under `claimSiteLe`. -/
theorem c2_children_order_counterexample :
    int64Items (emitTree (fun _ _ => some 0) 8
      (EncTree.node 7 [] [(⟨1, 5⟩, EncTree.node 1 [] []),
        (⟨2, 1⟩, EncTree.node 2 [] [])]) none).1 = [7, 1, 2] ∧
    claimSiteLe ⟨2, 1⟩ ⟨1, 5⟩ ∧ ¬ claimSiteLe ⟨1, 5⟩ ⟨2, 1⟩ ∧
    sortSites [(⟨1, 5⟩, EncTree.node 1 [] []), (⟨2, 1⟩, EncTree.node 2 [] [])] =
      [(⟨1, 5⟩, EncTree.node 1 [] []), (⟨2, 1⟩, EncTree.node 2 [] [])] ∧
    ¬ claimSiteLe (⟨1, 5⟩ : Site) ⟨2, 1⟩ := by
  refine ⟨?_, by decide, by decide, rfl, by decide⟩
  simp [emitTree, emitChildList, emitProbeList, sortSites, insertSorted,
    siteLe, int64Items]

/-- C2 (amended): `MCPseudoProbeInlineTree::emit` emits a node's probes in
insertion order before any of its children, and iterates the children in
ascending `std::map<InlineSite>` key order, where `InlineSite` is the tuple
`(GUID, callsite_index)` compared GUID-major — not `(callsite_index, guid)`
as claimed.  The iterated list is sorted under that GUID-major order and is
a permutation of the children. -/
theorem c2_amended_children_guid_major (evalDelta : Nat → Nat → Option Int)
    (ptrSize guid : Nat) (probes : List EncProbe)
    (children : List (Site × EncTree)) (lastP : Option EncProbe) :
    (emitTree evalDelta ptrSize (.node guid probes children) lastP).1 =
      (if guid ≠ 0 then
        [EmitItem.int64 guid, EmitItem.uleb probes.length,
          EmitItem.uleb children.length] ++
          (emitProbeList evalDelta ptrSize probes lastP).1
       else []) ++
      (emitChildList evalDelta ptrSize guid (sortSites children)
        (if guid ≠ 0 then (emitProbeList evalDelta ptrSize probes lastP).2
         else lastP)).1 ∧
    List.Sorted (fun a b : Site × EncTree => siteLe a.1 b.1)
      (sortSites children) ∧
    (sortSites children).Perm children := by
  refine ⟨?_, sorted_sortSites children, perm_sortSites children⟩
  by_cases hg : guid ≠ 0
  · simp [emitTree, if_pos hg]
  · simp [emitTree, if_neg hg]

theorem specContext_zipWith (m : List (Nat × FuncDesc)) :
    ∀ l : List Site,
    specContext m l =
      List.zipWith
        (fun parent node => (getProbeFNameForGUID m parent.guid, node.idx))
        l l.tail := by
  intro l
  induction l with
  | nil => rfl
  | cons a rest ih =>
    cases rest with
    | nil => rfl
    | cons b rest2 =>
      show (getProbeFNameForGUID m a.guid, b.idx) ::
          specContext m (b :: rest2) = _
      rw [ih]
      rfl

theorem specContext_snoc (m : List (Nat × FuncDesc)) :
    ∀ (l : List Site) (x y : Site),
    specContext m (l ++ [x, y]) =
      specContext m (l ++ [x]) ++ [(getProbeFNameForGUID m x.guid, y.idx)] := by
  intro l
  induction l with
  | nil => intro x y; rfl
  | cons a l ih =>
    intro x y
    cases l with
    | nil => rfl
    | cons b l2 =>
      show (getProbeFNameForGUID m a.guid, b.idx) ::
          specContext m (b :: (l2 ++ [x, y])) = _
      have := ih x y
      simp only [List.cons_append] at this
      rw [this]
      rfl

theorem collectUpRev_spec (m : List (Nat × FuncDesc)) :
    ∀ r : List Site, collectUpRev m r = (specContext m r.reverse).reverse := by
  intro r
  induction r with
  | nil => rfl
  | cons s r2 ih =>
    cases r2 with
    | nil => rfl
    | cons parent rest =>
      show (getProbeFNameForGUID m parent.guid, s.idx) ::
          collectUpRev m (parent :: rest) = _
      rw [ih]
      have h1 : (s :: parent :: rest).reverse = rest.reverse ++ [parent, s] := by
        simp
      have h2 : (parent :: rest).reverse = rest.reverse ++ [parent] := by
        simp
      rw [h1, specContext_snoc m rest.reverse parent s, List.reverse_append,
        ← h2]
      rfl

/-- C9: for every decoded probe, inline-context reconstruction — the upward
walk over parent links while the node has an inline site, collecting
(function name of the parent's GUID, the node's callsite index), reversed
into caller→callee order — yields exactly the parent/node pairs along the
probe's key path in top-down order, and when the leaf is requested the pair
(function name of the probe's GUID, the probe's index) is appended at the
end. -/
theorem c9_inline_context_reconstruction (m : List (Nat × FuncDesc))
    (p : DecProbe) (includeLeaf : Bool) :
    getInlineContextForProbe m p includeLeaf =
      List.zipWith
        (fun parent node => (getProbeFNameForGUID m parent.guid, node.idx))
        p.path p.path.tail ++
      (if includeLeaf then [(getProbeFNameForGUID m p.guid, p.index)]
       else []) := by
  unfold getInlineContextForProbe getInlineContext
  rw [collectUpRev_spec, List.reverse_reverse, List.reverse_reverse,
    specContext_zipWith]

theorem decProbeRecord_serProbe (p : WireProbe) (la : Nat) (tail : List Nat)
    (hwf : wfProbeB p = true) :
    decProbeRecord (serProbe p ++ tail) la =
      (some (p.index, p.kind, p.attr, wireAddrVal la p.addr), tail) := by
  simp only [wfProbeB, Bool.and_eq_true, decide_eq_true_eq] at hwf
  obtain ⟨⟨⟨hidx, hkind⟩, hattr⟩, haddr⟩ := hwf
  cases haddr' : p.addr with
  | delta d =>
    rw [haddr'] at haddr
    simp only [wfAddrB, decide_eq_true_eq] at haddr
    have hser : serProbe p ++ tail =
        encodeULEB p.index ++
          ((p.kind + 16 * p.attr + 128) :: (encodeSLEB d ++ tail)) := by
      simp [serProbe, haddr', List.append_assoc]
    rw [hser]
    simp only [decProbeRecord, readUnsignedNumber, decULEB_encodeULEB]
    rw [if_neg (show ¬ u32Max < p.index by omega)]
    simp only [readUnencodedNumber, decFixed]
    rw [if_neg (show ¬ ((p.kind + 16 * p.attr + 128) ::
      (encodeSLEB d ++ tail)).length < 1 by simp)]
    dsimp only
    rw [if_pos (show 128 ≤ p.kind + 16 * p.attr + 128 + 256 * 0 by omega)]
    simp only [readSignedNumber, decSLEB_encodeSLEB]
    rw [if_neg (show ¬ i64Max < d by omega)]
    have h16 : (p.kind + 16 * p.attr + 128 + 256 * 0) % 16 = p.kind := by omega
    have h8 : (p.kind + 16 * p.attr + 128 + 256 * 0) / 16 % 8 = p.attr := by omega
    rw [h16, h8]
    simp [wireAddrVal, haddr']
  | absolute a =>
    rw [haddr'] at haddr
    simp only [wfAddrB, decide_eq_true_eq] at haddr
    have hser : serProbe p ++ tail =
        encodeULEB p.index ++
          ((p.kind + 16 * p.attr) :: (encodeFixedLE 8 a ++ tail)) := by
      simp [serProbe, haddr', List.append_assoc]
    rw [hser]
    simp only [decProbeRecord, readUnsignedNumber, decULEB_encodeULEB]
    rw [if_neg (show ¬ u32Max < p.index by omega)]
    simp only [readUnencodedNumber, decFixed]
    rw [if_neg (show ¬ ((p.kind + 16 * p.attr) ::
      (encodeFixedLE 8 a ++ tail)).length < 1 by simp)]
    dsimp only
    rw [if_neg (show ¬ 128 ≤ p.kind + 16 * p.attr + 256 * 0 by omega)]
    rw [if_neg (show ¬ (encodeFixedLE 8 a ++ tail).length < 8 by
      simp [encodeFixedLE_length])]
    rw [decFixed_encodeFixedLE]
    have hmod : a % 256 ^ 8 = a := Nat.mod_eq_of_lt (by
      have : (256 : Nat) ^ 8 = 2 ^ 64 := by norm_num
      omega)
    rw [hmod]
    have h16 : (p.kind + 16 * p.attr + 256 * 0) % 16 = p.kind := by omega
    have h8 : (p.kind + 16 * p.attr + 256 * 0) / 16 % 8 = p.attr := by omega
    rw [h16, h8]
    simp [wireAddrVal, haddr']

theorem decProbes_serProbeList :
    ∀ (ps : List WireProbe), ps.all wfProbeB = true →
    ∀ (cur : Option (List Site)) (st : DecSt) (tail : List Nat),
    st.rem = serProbeList ps ++ tail →
    ∃ st', decProbes ps.length cur st = (true, st') ∧
      st'.rem = tail ∧
      (cur = none → st'.probes = st.probes) ∧
      (∀ path, cur = some path →
        ∀ q ∈ st'.probes, q ∈ st.probes ∨ q.path = path) := by
  intro ps
  induction ps with
  | nil =>
    intro _ cur st tail hrem
    refine ⟨st, rfl, ?_, fun _ => rfl, fun path _ q hq => Or.inl hq⟩
    simpa [serProbeList] using hrem
  | cons p rest ih =>
    intro hwf cur st tail hrem
    simp only [List.all_cons, Bool.and_eq_true] at hwf
    have hrec : decProbeRecord st.rem st.lastAddr =
        (some (p.index, p.kind, p.attr, wireAddrVal st.lastAddr p.addr),
          serProbeList rest ++ tail) := by
      rw [show st.rem = serProbe p ++ (serProbeList rest ++ tail) by
        simpa [serProbeList, List.append_assoc] using hrem]
      exact decProbeRecord_serProbe p st.lastAddr _ hwf.1
    simp only [List.length_cons, decProbes]
    rw [hrec]
    dsimp only
    cases cur with
    | none =>
      obtain ⟨st', hd, hr, hn, _⟩ := ih hwf.2 none
        { st with
            rem := serProbeList rest ++ tail
            lastAddr := wireAddrVal st.lastAddr p.addr } tail rfl
      refine ⟨st', hd, hr, fun _ => hn rfl, fun path hp => absurd hp (by simp)⟩
    | some path =>
      obtain ⟨st', hd, hr, _, hs⟩ := ih hwf.2 (some path)
        { st with
            rem := serProbeList rest ++ tail
            lastAddr := wireAddrVal st.lastAddr p.addr
            probes := st.probes ++
              [⟨wireAddrVal st.lastAddr p.addr, (path.getLastD ⟨0, 0⟩).guid,
                p.index, p.kind, p.attr, path⟩] } tail rfl
      refine ⟨st', hd, hr, fun h => absurd h (by simp), ?_⟩
      intro path' hp q hq
      have hpp : path' = path := by injection hp with h; exact h.symm
      subst hpp
      rcases hs path' rfl q hq with hq2 | hq2
      · rcases List.mem_append.mp hq2 with hq3 | hq3
        · exact Or.inl hq3
        · right
          have : q = ⟨wireAddrVal st.lastAddr p.addr,
              (path'.getLastD ⟨0, 0⟩).guid, p.index, p.kind, p.attr, path'⟩ := by
            simpa using hq3
          rw [this]
      · exact Or.inr hq2

theorem decBC_serialized : ∀ fuel : Nat,
    (∀ b : WireBody, bodyFuel b ≤ fuel → wfBodyB b = true →
      ∀ (filter : List Nat) (cur : Option (List Site)) (st : DecSt)
        (tail : List Nat),
      ((cur = some [] ∧ st.rem = serBody b ++ tail) ∨
        (cur ≠ some [] ∧ ∃ idx, idx ≤ u32Max ∧
          st.rem = encodeULEB idx ++ (serBody b ++ tail))) →
      ∃ st', decBody fuel filter cur st = some (true, st') ∧ st'.rem = tail ∧
        (cur = none → st'.probes = st.probes) ∧
        (∀ path, cur = some path → path ≠ [] →
          ∀ q ∈ st'.probes, q ∈ st.probes ∨ ∃ suf, q.path = path ++ suf) ∧
        (cur = some [] → filter ≠ [] →
          ∀ q ∈ st'.probes, q ∈ st.probes ∨
            (q.path.headD ⟨0, 0⟩).guid ∈ filter)) ∧
    (∀ l : List (Nat × WireBody), inlFuel l ≤ fuel → wfInlineesB l = true →
      ∀ (filter : List Nat) (cur : Option (List Site)) (st : DecSt)
        (tail : List Nat),
      cur ≠ some [] → st.rem = serInlinees l ++ tail →
      ∃ st', decChildren fuel l.length filter cur st = some st' ∧
        st'.rem = tail ∧
        (cur = none → st'.probes = st.probes) ∧
        (∀ path, cur = some path →
          ∀ q ∈ st'.probes, q ∈ st.probes ∨ ∃ suf, q.path = path ++ suf)) := by
  intro fuel
  induction fuel with
  | zero =>
    constructor
    · intro b hfb
      exfalso
      cases b with
      | node g ps inls => simp only [bodyFuel] at hfb; omega
    · intro l hfl _ filter cur st tail _ hrem
      cases l with
      | nil =>
        refine ⟨st, rfl, ?_, fun _ => rfl, fun path _ q hq => Or.inl hq⟩
        simpa [serInlinees] using hrem
      | cons x rest => simp only [inlFuel] at hfl; omega
  | succ fuel ih =>
    obtain ⟨ihB, ihC⟩ := ih
    constructor
    · rintro b hfb hwfb filter cur st tail hpre
      rcases b with ⟨guid, probes, inlinees⟩
      simp only [bodyFuel] at hfb
      have hfI : inlFuel inlinees ≤ fuel := by omega
      simp only [wfBodyB, Bool.and_eq_true, decide_eq_true_eq] at hwfb
      obtain ⟨⟨⟨⟨hguid, hplen⟩, hilen⟩, hpwf⟩, hiwf⟩ := hwfb
      rcases st with ⟨rem, la, rc, ps⟩
      dsimp only at hpre
      obtain ⟨index0, hfirst⟩ : ∃ i0,
          (if cur = some [] then ((some rc : Option Nat), rem)
           else readUnsignedNumber u32Max rem) =
            (some i0, serBody (.node guid probes inlinees) ++ tail) := by
        rcases hpre with ⟨hc, hrem⟩ | ⟨hc, idx, hidx, hrem⟩
        · exact ⟨rc, by rw [if_pos hc, hrem]⟩
        · refine ⟨idx, ?_⟩
          rw [if_neg hc, hrem]
          simp only [readUnsignedNumber, decULEB_encodeULEB]
          rw [if_neg (show ¬ u32Max < idx by omega)]
      have hser : serBody (.node guid probes inlinees) ++ tail =
          encodeFixedLE 8 guid ++ (encodeULEB probes.length ++
            (encodeULEB inlinees.length ++ (serProbeList probes ++
              (serInlinees inlinees ++ tail)))) := by
        simp [serBody, List.append_assoc]
      have hg : readUnencodedNumber 8
          (serBody (.node guid probes inlinees) ++ tail) =
          (some guid, encodeULEB probes.length ++
            (encodeULEB inlinees.length ++ (serProbeList probes ++
              (serInlinees inlinees ++ tail)))) := by
        rw [hser]
        simp only [readUnencodedNumber]
        rw [if_neg (by simp [encodeFixedLE_length])]
        rw [decFixed_encodeFixedLE]
        have h256 : guid % 256 ^ 8 = guid := Nat.mod_eq_of_lt (by
          have : (256 : Nat) ^ 8 = 2 ^ 64 := by norm_num
          omega)
        rw [h256]
      have hn1 : readUnsignedNumber u32Max (encodeULEB probes.length ++
          (encodeULEB inlinees.length ++ (serProbeList probes ++
            (serInlinees inlinees ++ tail)))) =
          (some probes.length, encodeULEB inlinees.length ++
            (serProbeList probes ++ (serInlinees inlinees ++ tail))) := by
        simp only [readUnsignedNumber, decULEB_encodeULEB]
        rw [if_neg (show ¬ u32Max < probes.length by omega)]
      have hn2 : readUnsignedNumber u32Max (encodeULEB inlinees.length ++
          (serProbeList probes ++ (serInlinees inlinees ++ tail))) =
          (some inlinees.length, serProbeList probes ++
            (serInlinees inlinees ++ tail)) := by
        simp only [readUnsignedNumber, decULEB_encodeULEB]
        rw [if_neg (show ¬ u32Max < inlinees.length by omega)]
      simp only [decBody]
      rw [hfirst]
      dsimp only
      rw [hg]
      dsimp only
      rw [hn1]
      dsimp only
      rw [hn2]
      dsimp only
      by_cases hfil : cur = some [] ∧ filter ≠ [] ∧ ¬ guid ∈ filter
      · simp only [if_pos hfil, Option.map_none']
        obtain ⟨st4, hdecP, hrem4, hpnone, _⟩ :=
          decProbes_serProbeList probes hpwf none
            ⟨serProbeList probes ++ (serInlinees inlinees ++ tail), la,
              if (none : Option (List Site)) = some [] then rc + 1 else rc, ps⟩
            (serInlinees inlinees ++ tail) rfl
        rw [hdecP]
        dsimp only
        obtain ⟨st5, hdecC, hrem5, hcnone, _⟩ :=
          ihC inlinees hfI hiwf filter none st4 tail (by simp) hrem4
        rw [hdecC]
        refine ⟨st5, rfl, hrem5, ?_, ?_, ?_⟩
        · intro hcn
          rw [hcn] at hfil
          simp at hfil
        · intro path hcp hpne
          rw [hcp] at hfil
          simp only [Option.some.injEq] at hfil
          exact absurd hfil.1 hpne
        · intro _ _ q hq
          rw [hcnone rfl, hpnone rfl] at hq
          exact Or.inl hq
      · simp only [if_neg hfil]
        obtain ⟨st4, hdecP, hrem4, hpnone, hpsome⟩ :=
          decProbes_serProbeList probes hpwf
            (cur.map (fun path => path ++ [⟨guid, index0⟩]))
            ⟨serProbeList probes ++ (serInlinees inlinees ++ tail), la,
              if cur = some [] then rc + 1 else rc, ps⟩
            (serInlinees inlinees ++ tail) rfl
        rw [hdecP]
        dsimp only
        have hcm : cur.map (fun path => path ++ [⟨guid, index0⟩]) ≠
            some [] := by
          cases cur <;> simp
        obtain ⟨st5, hdecC, hrem5, hcnone, hcsome⟩ :=
          ihC inlinees hfI hiwf filter
            (cur.map (fun path => path ++ [⟨guid, index0⟩])) st4 tail hcm hrem4
        rw [hdecC]
        refine ⟨st5, rfl, hrem5, ?_, ?_, ?_⟩
        · intro hcn
          subst hcn
          rw [hcnone rfl, hpnone rfl]
        · intro path hcp hpne q hq
          subst hcp
          rcases hcsome (path ++ [⟨guid, index0⟩]) (by simp) q hq with hq4 |
            ⟨suf, hsuf⟩
          · rcases hpsome (path ++ [⟨guid, index0⟩]) (by simp) q hq4 with
              hq3 | hq3
            · exact Or.inl hq3
            · exact Or.inr ⟨[⟨guid, index0⟩], hq3⟩
          · exact Or.inr ⟨⟨guid, index0⟩ :: suf, by
              rw [hsuf, List.append_assoc]; rfl⟩
        · intro hce hfne q hq
          have hgf : guid ∈ filter := by
            by_contra hgf
            exact hfil ⟨hce, hfne, hgf⟩
          subst hce
          rcases hcsome ([] ++ [⟨guid, index0⟩]) (by simp) q hq with hq4 |
            ⟨suf, hsuf⟩
          · rcases hpsome ([] ++ [⟨guid, index0⟩]) (by simp) q hq4 with
              hq3 | hq3
            · exact Or.inl hq3
            · right
              rw [hq3]
              simpa using hgf
          · right
            rw [hsuf]
            simpa using hgf
    · intro l hfl hwfl filter cur st tail hcur hrem
      cases l with
      | nil =>
        refine ⟨st, rfl, ?_, fun _ => rfl, fun path _ q hq => Or.inl hq⟩
        simpa [serInlinees] using hrem
      | cons x rest =>
        rcases x with ⟨idx, b⟩
        simp only [inlFuel] at hfl
        simp only [wfInlineesB, Bool.and_eq_true, decide_eq_true_eq] at hwfl
        obtain ⟨⟨hidx, hwb⟩, hwrest⟩ := hwfl
        have hrem' : st.rem =
            encodeULEB idx ++ (serBody b ++ (serInlinees rest ++ tail)) := by
          simpa [serInlinees, List.append_assoc] using hrem
        obtain ⟨st2, hb, hrem2, hbnone, hbsome, _⟩ :=
          ihB b (by omega) hwb filter cur st (serInlinees rest ++ tail)
            (Or.inr ⟨hcur, idx, hidx, hrem'⟩)
        obtain ⟨st3, hc, hrem3, hcnone, hcsome⟩ :=
          ihC rest (by omega) hwrest filter cur st2 tail hcur hrem2
        simp only [List.length_cons, decChildren]
        rw [hb]
        dsimp only
        refine ⟨st3, hc, hrem3, ?_, ?_⟩
        · intro hcn
          rw [hcnone hcn, hbnone hcn]
        · intro path hcp q hq
          have hpne : path ≠ [] := fun h => hcur (by rw [hcp, h])
          rcases hcsome path hcp q hq with hq2 | ⟨suf, hsuf⟩
          · rcases hbsome path hcp hpne q hq2 with hq1 | ⟨suf, hsuf⟩
            · exact Or.inl hq1
            · exact Or.inr ⟨suf, hsuf⟩
          · exact Or.inr ⟨suf, hsuf⟩

theorem serBody_ne_nil (b : WireBody) : serBody b ≠ [] := by
  cases b with
  | node guid probes inlinees =>
    intro h
    have hlen := congrArg List.length h
    simp [serBody, encodeFixedLE_length] at hlen

theorem decOuter_serSection :
    ∀ (bodies : List WireBody) (fuel : Nat), secFuel bodies ≤ fuel →
    bodies.all wfBodyB = true →
    ∀ (filter : List Nat) (st : DecSt), st.rem = serSection bodies →
    ∃ st', decOuter fuel filter st = some (true, st') ∧ st'.rem = [] ∧
      (filter ≠ [] → ∀ q ∈ st'.probes,
        q ∈ st.probes ∨ (q.path.headD ⟨0, 0⟩).guid ∈ filter) := by
  intro bodies
  induction bodies with
  | nil =>
    intro fuel hfuel _ filter st hrem
    simp only [secFuel] at hfuel
    cases fuel with
    | zero => omega
    | succ f =>
      have hremnil : st.rem = [] := by simpa [serSection] using hrem
      refine ⟨st, ?_, hremnil, fun _ q hq => Or.inl hq⟩
      simp only [decOuter, if_pos hremnil]
  | cons b rest ih =>
    intro fuel hfuel hwf filter st hrem
    simp only [secFuel] at hfuel
    simp only [List.all_cons, Bool.and_eq_true] at hwf
    cases fuel with
    | zero => omega
    | succ f =>
      have hne : st.rem ≠ [] := by
        rw [hrem]
        simp only [serSection]
        intro h
        rcases List.append_eq_nil.mp h with ⟨h1, _⟩
        exact serBody_ne_nil b h1
      obtain ⟨st2, hb, hrem2, _, _, htop⟩ :=
        (decBC_serialized f).1 b (by omega) hwf.1 filter (some []) st
          (serSection rest) (Or.inl ⟨rfl, by rw [hrem]; rfl⟩)
      obtain ⟨st3, hrest, hrem3, hinv⟩ := ih f (by omega) hwf.2 filter st2 hrem2
      refine ⟨st3, ?_, hrem3, ?_⟩
      · simp only [decOuter, if_neg hne]
        rw [hb]
        dsimp only
        exact hrest
      · intro hfne q hq
        rcases hinv hfne q hq with hq2 | hg
        · rcases htop rfl hfne q hq2 with hq1 | hg
          · exact Or.inl hq1
          · exact Or.inr hg
        · exact Or.inr hg

/-- C3: on a well-formed probe section — any serialized forest of function
bodies whose numbers fit the types the decoder reads them at — and a
non-empty GUID filter, `buildAddress2ProbeMap` consumes exactly the whole
byte range (filtered subtrees are structurally consumed), and every probe
placed in the address index has its top-level ancestor's GUID (the head of
its inline-tree key path) in the filter. -/
theorem c3_filter_containment_full_consumption (bodies : List WireBody)
    (filter : List Nat) (fuel : Nat)
    (hfuel : secFuel bodies ≤ fuel) (hwf : bodies.all wfBodyB = true)
    (hfil : filter ≠ []) :
    ∃ st', buildAddress2ProbeMap fuel (serSection bodies) filter =
        some (true, st') ∧
      st'.rem = [] ∧
      ∀ q ∈ st'.probes, (q.path.headD ⟨0, 0⟩).guid ∈ filter := by
  obtain ⟨st', hd, hrem, hinv⟩ := decOuter_serSection bodies fuel hfuel hwf
    filter ⟨serSection bodies, 0, 0, []⟩ rfl
  refine ⟨st', hd, hrem, ?_⟩
  intro q hq
  rcases hinv hfil q hq with hq2 | hg
  · simp at hq2
  · exact hg

/-- Witness for C3: a section with one top-level function (GUID 5, one
absolute-address probe, no inlinees) and the filter `[5]`. -/
theorem c3_filter_containment_full_consumption_witness :
    ∃ st', buildAddress2ProbeMap 2
        (serSection [.node 5 [⟨1, 0, 0, .absolute 7⟩] []]) [5] =
        some (true, st') ∧
      st'.rem = [] ∧
      ∀ q ∈ st'.probes, (q.path.headD ⟨0, 0⟩).guid ∈ [5] :=
  c3_filter_containment_full_consumption [.node 5 [⟨1, 0, 0, .absolute 7⟩] []]
    [5] 2
    (by simp [secFuel, bodyFuel, inlFuel])
    (by simp [wfBodyB, wfInlineesB, wfProbeB, wfAddrB, u32Max])
    (by simp)
